import Mathlib

/-!
Shallow embedding of `src/src/d2tree-histogram.rs` (the bounded-memory
streaming histogram).

Modelling conventions:
* the value domain `L` (an ordered float wrapped in `OrderedFloat`) is
  embedded as `ℚ`: the claims under study are structural and arithmetic,
  not about rounding, and `OrderedFloat` gives a total order just as `ℚ`;
* the weight domain `C` is embedded as `ℕ` (a non-negative numeric weight
  type with zero, one and addition, as required by the trait bounds);
* the `BTreeMap<BinAddress, BinData>` is embedded as an association list
  kept sorted strictly ascending by the lexicographic address order
  (`Ord for BinAddress`); `range(..=k).next_back()` becomes the last
  element `≤ k`, `range(k<..).next()` the first element `> k`, and
  `insert` replaces the value at an existing key;
* the `BinaryHeap<BinDistance>` is embedded as a `List BinDistance`;
  `push` appends, and `pop` removes an element of minimal `distance`
  (the reverse ordering implemented for `BinDistance` makes the std
  max-heap a min-heap on `distance`; among equal distances std leaves the
  choice unspecified, the model takes the earliest pushed);
* `pop().unwrap()` on an empty heap — the only panic reachable in the
  histogram code — is modelled by returning `none`; every operation that
  can reach it returns `Option`.
-/

/-- `BinAddress<L>`: interval key `{left, right}` over the value domain. -/
structure BinAddress where
  left : ℚ
  right : ℚ
deriving DecidableEq, Repr

/-- The lexicographic strict order on addresses: `Ord for BinAddress`
(`left.cmp(...).then(right.cmp(...))`). -/
def altb (a b : BinAddress) : Prop :=
  a.left < b.left ∨ (a.left = b.left ∧ a.right < b.right)

instance (a b : BinAddress) : Decidable (altb a b) := by
  unfold altb; infer_instance

/-- The reflexive closure of `altb`: `a ≤ b` in the `BTreeMap` key order. -/
def alte (a b : BinAddress) : Prop :=
  altb a b ∨ a = b

instance (a b : BinAddress) : Decidable (alte a b) := by
  unfold alte; infer_instance

/-- `BinAddress::init`: degenerate interval at `y`. -/
def BinAddress.init (y : ℚ) : BinAddress := ⟨y, y⟩

/-- `BinAddress::new`. -/
def BinAddress.new (left right : ℚ) : BinAddress := ⟨left, right⟩

/-- `BinAddress::contains`: position of `y` relative to `[left, right]`. -/
def BinAddress.contains (a : BinAddress) (y : ℚ) : Ordering :=
  if y < a.left then .lt else if a.right < y then .gt else .eq

/-- `BinAddress::merge`: widen to the union's bounds. -/
def BinAddress.merge (a b : BinAddress) : BinAddress :=
  ⟨min a.left b.left, max a.right b.right⟩

/-- `BinData<L, C>`: weighted count plus value sum. -/
structure BinData where
  count : ℕ
  sum : ℚ
deriving DecidableEq, Repr

/-- `BinData::init`: `count = One::one()`, `sum = y`.  Note the weight of
the inserted point is *not* a parameter: a fresh bin always gets count 1. -/
def BinData.init (y : ℚ) : BinData := ⟨1, y⟩

/-- `BinData::new`. -/
def BinData.new (count : ℕ) (sum : ℚ) : BinData := ⟨count, sum⟩

/-- `BinData::merge`: counts and sums added elementwise. -/
def BinData.merge (a b : BinData) : BinData := ⟨a.count + b.count, a.sum + b.sum⟩

/-- `BinDistance<L>`: a candidate pair of addresses with their recorded gap. -/
structure BinDistance where
  left : BinAddress
  right : BinAddress
  distance : ℚ
deriving DecidableEq, Repr

/-- `BinDistance::new`: `distance = (right.left - left.right).max(0)`. -/
def BinDistance.new (l r : BinAddress) : BinDistance :=
  ⟨l, r, max (r.left - l.right) 0⟩

/-- The bin mapping: `BTreeMap<BinAddress, BinData>` as a sorted assoc list. -/
abbrev Bins := List (BinAddress × BinData)

/-- The key list of a bin mapping. -/
def keys (bins : Bins) : List BinAddress := bins.map Prod.fst

/-- `BTreeMap::insert` on the sorted-list representation: insert at the
ordered position, replacing the value if the key is already present. -/
def binsInsert (k : BinAddress) (v : BinData) : Bins → Bins
  | [] => [(k, v)]
  | e :: rest =>
    if altb k e.1 then (k, v) :: e :: rest
    else if k = e.1 then (k, v) :: rest
    else e :: binsInsert k v rest

/-- `BTreeMap::remove`: drop the entry at key `k` (the first occurrence in
list form), returning the removed value if any. -/
def binsRemove (k : BinAddress) : Bins → Option BinData × Bins
  | [] => (none, [])
  | e :: rest =>
    if e.1 = k then (some e.2, rest)
    else
      let p := binsRemove k rest
      (p.1, e :: p.2)

/-- `bins.range((Unbounded, Included(k))).next_back()`: on a sorted map,
the last entry with key `≤ k`. -/
def binsPred (k : BinAddress) (bins : Bins) : Option (BinAddress × BinData) :=
  (bins.filter fun e => decide (alte e.1 k)).getLast?

/-- `bins.range((Excluded(k), Unbounded)).next()`: on a sorted map, the
first entry with key `> k`. -/
def binsSucc (k : BinAddress) (bins : Bins) : Option (BinAddress × BinData) :=
  (bins.filter fun e => decide (altb k e.1)).head?

/-- `BinaryHeap::pop` through the reverse ordering on `BinDistance`:
remove an element of minimal `distance` (first such in list order). -/
def heapPop : List BinDistance → Option (BinDistance × List BinDistance)
  | [] => none
  | d :: rest =>
    match heapPop rest with
    | none => some (d, [])
    | some (m, r) => if d.distance ≤ m.distance then some (d, rest) else some (m, d :: r)

/-- `Histogram<L, C>`: bin mapping, candidate-distance heap, bin budget. -/
structure Histogram where
  bins : Bins
  distances : List BinDistance
  n_bins : ℕ
deriving DecidableEq, Repr

/-- `Histogram::new`. -/
def Histogram.new (n_bins : ℕ) : Histogram := ⟨[], [], n_bins⟩

/-- `Histogram::rebuild_distances` as a function of the bin mapping:
clear the heap and push one entry per adjacent pair of the sorted map. -/
def rebuildList (bins : Bins) : List BinDistance :=
  (bins.zip (bins.drop 1)).map fun p => BinDistance.new p.1.1 p.2.1

theorem heapPop_isSome {l : List BinDistance} (h : l ≠ []) :
    (heapPop l).isSome := by
  cases l with
  | nil => exact absurd rfl h
  | cons d rest =>
    cases hp : heapPop rest with
    | none => simp [heapPop, hp]
    | some p =>
      simp only [heapPop, hp]
      split <;> simp

theorem heapPop_none {l : List BinDistance} (h : heapPop l = none) : l = [] := by
  by_contra hne
  have := heapPop_isSome hne
  rw [h] at this
  simp at this

theorem heapPop_length {l : List BinDistance} {d : BinDistance}
    {rest : List BinDistance} (h : heapPop l = some (d, rest)) :
    rest.length + 1 = l.length := by
  induction l generalizing d rest with
  | nil => simp [heapPop] at h
  | cons a t ih =>
    simp only [heapPop] at h
    revert h
    cases hp : heapPop t with
    | none =>
      intro h
      have ht : t = [] := heapPop_none hp
      subst ht
      injection h with h'
      have : rest = [] := (congrArg Prod.snd h').symm
      simp [this]
    | some p =>
      obtain ⟨m, r⟩ := p
      intro h
      dsimp only at h
      by_cases hle : a.distance ≤ m.distance
      · rw [if_pos hle] at h
        injection h with h'
        have : rest = t := (congrArg Prod.snd h').symm
        simp [this]
      · rw [if_neg hle] at h
        injection h with h'
        have h2 : rest = a :: r := (congrArg Prod.snd h').symm
        have h3 := ih hp
        subst h2
        simp only [List.length_cons]
        omega

theorem binsRemove_none {k : BinAddress} {bins : Bins}
    (h : (binsRemove k bins).1 = none) : (binsRemove k bins).2 = bins := by
  induction bins with
  | nil => simp [binsRemove]
  | cons e rest ih =>
    by_cases he : e.1 = k
    · simp [binsRemove, he] at h
    · simp only [binsRemove, if_neg he] at h ⊢
      simp [ih h]

theorem binsRemove_some_length {k : BinAddress} {bins : Bins} {v : BinData}
    (h : (binsRemove k bins).1 = some v) :
    (binsRemove k bins).2.length + 1 = bins.length := by
  induction bins with
  | nil => simp [binsRemove] at h
  | cons e rest ih =>
    by_cases he : e.1 = k
    · simp [binsRemove, he]
    · simp only [binsRemove, if_neg he] at h ⊢
      simp [ih h]

theorem binsInsert_length_le (k : BinAddress) (v : BinData) (bins : Bins) :
    (binsInsert k v bins).length ≤ bins.length + 1 := by
  induction bins with
  | nil => simp [binsInsert]
  | cons e rest ih =>
    by_cases h1 : altb k e.1
    · simp [binsInsert, h1]
    · by_cases h2 : k = e.1
      · simp only [binsInsert, if_neg h1, if_pos h2, List.length_cons]
        omega
      · simp only [binsInsert, if_neg h1, if_neg h2, List.length_cons]
        omega

/-- One iteration of the `Histogram::shrink_to_fit` loop after the popped
candidate `d` (with `rest` the heap left after the pop): remove both
addressed bins; if either was absent, restore what was removed (a stale
candidate); otherwise insert the merged bin, push the distance to its new
successor and rebuild the index when it has outgrown `10 * n_bins`. -/
def shrinkStep (n : ℕ) (bins : Bins) (d : BinDistance)
    (rest : List BinDistance) : Bins × List BinDistance :=
  match binsRemove d.left bins with
  | (some dl, bins1) =>
    match binsRemove d.right bins1 with
    | (some dr, bins2) =>
      let mAddr := BinAddress.merge d.left d.right
      let bins3 := binsInsert mAddr (BinData.merge dl dr) bins2
      let dists2 :=
        match binsSucc mAddr bins3 with
        | some s => rest ++ [BinDistance.new mAddr s.1]
        | none => rest
      (bins3, if n * 10 < dists2.length then rebuildList bins3 else dists2)
    | (none, bins2) => (binsInsert d.left dl bins2, rest)
  | (none, bins1) =>
    match binsRemove d.right bins1 with
    | (some dr, bins2) => (binsInsert d.right dr bins2, rest)
    | (none, bins2) => (bins2, rest)

theorem binsRemove_pair_none {k : BinAddress} {bins b2 : Bins}
    (h : binsRemove k bins = (none, b2)) : b2 = bins := by
  have h1 : (binsRemove k bins).1 = none := by rw [h]
  have := binsRemove_none h1
  rw [h] at this
  exact this

theorem binsRemove_pair_some {k : BinAddress} {bins b2 : Bins} {v : BinData}
    (h : binsRemove k bins = (some v, b2)) : b2.length + 1 = bins.length := by
  have h1 : (binsRemove k bins).1 = some v := by rw [h]
  have := binsRemove_some_length h1
  rw [h] at this
  exact this

theorem shrinkStep_measure (n : ℕ) (bins : Bins) (d : BinDistance)
    (rest : List BinDistance) :
    (shrinkStep n bins d rest).1.length < bins.length ∨
      ((shrinkStep n bins d rest).1.length ≤ bins.length ∧
        (shrinkStep n bins d rest).2 = rest) := by
  rcases hl : binsRemove d.left bins with ⟨ol, bins1⟩
  rcases hr : binsRemove d.right bins1 with ⟨orr, bins2⟩
  cases ol with
  | some dl =>
    have h1 := binsRemove_pair_some hl
    cases orr with
    | some dr =>
      have h2 := binsRemove_pair_some hr
      have h3 := binsInsert_length_le (BinAddress.merge d.left d.right)
        (BinData.merge dl dr) bins2
      left
      simp only [shrinkStep, hl, hr]
      omega
    | none =>
      have h2 := binsRemove_pair_none hr
      have h3 := binsInsert_length_le d.left dl bins2
      simp only [shrinkStep, hl, hr]
      rcases Nat.lt_or_ge (binsInsert d.left dl bins2).length bins.length with
        hlt | hge
      · left; exact hlt
      · right
        have h2l : bins2.length = bins1.length := by rw [h2]
        exact ⟨by omega, trivial⟩
  | none =>
    have h1 := binsRemove_pair_none hl
    cases orr with
    | some dr =>
      have h2 := binsRemove_pair_some hr
      have h3 := binsInsert_length_le d.right dr bins2
      simp only [shrinkStep, hl, hr]
      rcases Nat.lt_or_ge (binsInsert d.right dr bins2).length bins.length with
        hlt | hge
      · left; exact hlt
      · right
        refine ⟨?_, trivial⟩
        rw [h1] at h2
        omega
    | none =>
      have h2 := binsRemove_pair_none hr
      simp only [shrinkStep, hl, hr]
      right
      exact ⟨le_of_eq (by rw [h2, h1]), trivial⟩

/-- The loop of `Histogram::shrink_to_fit` in explicit-state form.
`none` is the `self.distances.pop().unwrap()` panic on an empty heap. -/
def shrinkGo (n : ℕ) (bins : Bins) (dists : List BinDistance) :
    Option (Bins × List BinDistance) :=
  if bins.length ≤ n then some (bins, dists)
  else
    match hpop : heapPop dists with
    | none => none
    | some (d, rest) =>
      shrinkGo n (shrinkStep n bins d rest).1 (shrinkStep n bins d rest).2
  termination_by (bins.length, dists.length)
  decreasing_by
    rcases shrinkStep_measure n bins d rest with hle | ⟨hle, heq⟩
    · exact Prod.Lex.left _ _ hle
    · rcases Nat.lt_or_ge (shrinkStep n bins d rest).1.length bins.length with
        hlt | hge
      · exact Prod.Lex.left _ _ hlt
      · have hb : (shrinkStep n bins d rest).1.length = bins.length := by omega
        rw [hb, heq]
        have := heapPop_length hpop
        exact Prod.Lex.right _ (by omega)

/-- `Histogram::shrink_to_fit` (`none` = the `unwrap` panic). -/
def Histogram.shrink_to_fit (h : Histogram) : Option Histogram :=
  (shrinkGo h.n_bins h.bins h.distances).map fun p => ⟨p.1, p.2, h.n_bins⟩

/-- `Histogram::insert(y, count)` from the `BaseHistogram` impl.  The
result is `none` exactly when the final `shrink_to_fit` panics. -/
def Histogram.insert (h : Histogram) (y : ℚ) (count : ℕ) : Option Histogram :=
  let newAddr := BinAddress.init y
  let newData := BinData.init y
  match binsPred newAddr h.bins with
  | some e =>
    if newAddr.right ≤ e.1.right then
      -- fold branch: data.count += count; data.sum = data.sum + y
      Histogram.shrink_to_fit
        ⟨binsInsert e.1 ⟨e.2.count + count, e.2.sum + y⟩ h.bins, h.distances, h.n_bins⟩
    else
      let d1 := h.distances ++ [BinDistance.new e.1 newAddr]
      let d2 :=
        match binsSucc newAddr h.bins with
        | some s => d1 ++ [BinDistance.new newAddr s.1]
        | none => d1
      Histogram.shrink_to_fit ⟨binsInsert newAddr newData h.bins, d2, h.n_bins⟩
  | none =>
    let d2 :=
      match binsSucc newAddr h.bins with
      | some s => h.distances ++ [BinDistance.new newAddr s.1]
      | none => h.distances
    Histogram.shrink_to_fit ⟨binsInsert newAddr newData h.bins, d2, h.n_bins⟩

/-- `Histogram::count`: total weighted mass, folded over the bins. -/
def Histogram.count (h : Histogram) : ℕ :=
  h.bins.foldl (fun s e => s + e.2.count) 0

/-- The `skip_while`/`next` walk inside `Median::median`. -/
def medianGo (target : ℕ) : Bins → Option ℚ
  | [] => none
  | e :: rest =>
    if e.2.count ≤ target then medianGo (target - e.2.count) rest
    else some (e.1.left + (e.1.right - e.1.left) * ((target : ℚ) / (e.2.count : ℚ)))

/-- `Median::median for Histogram`. -/
def Histogram.median (h : Histogram) : Option ℚ :=
  medianGo (h.count / 2) h.bins

/-- `bins.entry(k).and_modify(|bin| bin.merge(&v)).or_insert(v)` on the
sorted-list representation. -/
def binsMergeInsert (k : BinAddress) (v : BinData) : Bins → Bins
  | [] => [(k, v)]
  | e :: rest =>
    if altb k e.1 then (k, v) :: e :: rest
    else if k = e.1 then (e.1, BinData.merge e.2 v) :: rest
    else e :: binsMergeInsert k v rest

/-- `HistogramSetItem::merge_borrowed`: fold every bin of `other` into
`self`, rebuild the candidate index, compress. -/
def Histogram.merge_borrowed (h other : Histogram) : Option Histogram :=
  let bins' := other.bins.foldl (fun b e => binsMergeInsert e.1 e.2 b) h.bins
  Histogram.shrink_to_fit ⟨bins', rebuildList bins', h.n_bins⟩

/-- `HistogramSetItem::merge`: identical to `merge_borrowed` except that
it consumes `other` (ownership is invisible to the model). -/
def Histogram.merge (h other : Histogram) : Option Histogram :=
  Histogram.merge_borrowed h other

/-- `HistogramSetItem::empty_clone`. -/
def Histogram.empty_clone (h : Histogram) : Histogram :=
  Histogram.new h.n_bins

/-- `SerializableHistogram<L, C>`. -/
structure SerializableHistogram where
  n_bins : ℕ
  bins : List (ℚ × ℚ × BinData)
deriving DecidableEq, Repr

/-- `From<Histogram> for SerializableHistogram`: flatten the sorted map. -/
def Histogram.toSerializable (h : Histogram) : SerializableHistogram :=
  ⟨h.n_bins, h.bins.map fun e => (e.1.left, e.1.right, e.2)⟩

/-- `Into<Histogram> for SerializableHistogram`: re-insert every listed
bin directly into the mapping, rebuilding the distances each iteration;
compression is never invoked. -/
def SerializableHistogram.toHistogram (s : SerializableHistogram) : Histogram :=
  s.bins.foldl
    (fun hist t =>
      let b := binsInsert (BinAddress.new t.1 t.2.1) t.2.2 hist.bins
      ⟨b, rebuildList b, hist.n_bins⟩)
    (Histogram.new s.n_bins)

/-- `PartialBinSum::partial_sum` for `(&BinAddress, &BinData)`; the
`panic!` for `r > bin.count` is modelled as `none`. -/
def partialSum (addr : BinAddress) (data : BinData) (r : ℕ) : Option ℚ :=
  if r < data.count then
    let rf : ℚ := r
    let cf : ℚ := data.count
    let delta := (data.sum - addr.right - cf * addr.left + addr.left) /
      ((cf - 2) * (cf - 1))
    some (rf * addr.left + rf * (rf - 1) * delta)
  else if r = data.count then some data.sum
  else none

/-- The histograms reachable from `Histogram::new` through the public
mutating operations (`insert`, `merge`, `merge_borrowed`); an operation
"reaches" a histogram only when it returns rather than panics. -/
inductive Reached : Histogram → Prop
  | new (n : ℕ) : Reached (Histogram.new n)
  | ins {h h' : Histogram} (y : ℚ) (c : ℕ) :
      Reached h → Histogram.insert h y c = some h' → Reached h'
  | mrg {h g h' : Histogram} :
      Reached h → Reached g → Histogram.merge h g = some h' → Reached h'
  | mrgb {h g h' : Histogram} :
      Reached h → Reached g → Histogram.merge_borrowed h g = some h' → Reached h'

/-- Totalised bin count of a map, as a mapped sum. -/
def binsCount (bins : Bins) : ℕ := (bins.map fun e => e.2.count).sum

/-! ### Order lemmas for the lexicographic address order -/

theorem altb_irrefl (a : BinAddress) : ¬altb a a := by
  unfold altb; simp

theorem altb_trans {a b c : BinAddress} (h1 : altb a b) (h2 : altb b c) :
    altb a c := by
  unfold altb at *
  rcases h1 with h1 | ⟨h1e, h1r⟩ <;> rcases h2 with h2 | ⟨h2e, h2r⟩
  · exact Or.inl (h1.trans h2)
  · exact Or.inl (h2e ▸ h1)
  · exact Or.inl (h1e ▸ h2)
  · exact Or.inr ⟨h1e.trans h2e, h1r.trans h2r⟩

theorem altb_total {a b : BinAddress} (h : a ≠ b) : altb a b ∨ altb b a := by
  unfold altb
  rcases lt_trichotomy a.left b.left with hl | hl | hl
  · exact Or.inl (Or.inl hl)
  · rcases lt_trichotomy a.right b.right with hr | hr | hr
    · exact Or.inl (Or.inr ⟨hl, hr⟩)
    · exact absurd (by cases a; cases b; simp_all) h
    · exact Or.inr (Or.inr ⟨hl.symm, hr⟩)
  · exact Or.inr (Or.inl hl)

theorem altb_asymm {a b : BinAddress} (h1 : altb a b) : ¬altb b a := by
  intro h2
  exact altb_irrefl a (altb_trans h1 h2)

theorem altb_ne {a b : BinAddress} (h : altb a b) : a ≠ b := by
  rintro rfl
  exact altb_irrefl a h

theorem not_altb_iff {a b : BinAddress} : ¬altb a b ↔ (a = b ∨ altb b a) := by
  constructor
  · intro h
    by_cases he : a = b
    · exact Or.inl he
    · rcases altb_total he with h1 | h1
      · exact absurd h1 h
      · exact Or.inr h1
  · rintro (rfl | h1)
    · exact altb_irrefl a
    · exact altb_asymm h1

/-! ### Membership and sortedness lemmas for the map operations -/

theorem mem_keys_binsInsert {k : BinAddress} {v : BinData} {bins : Bins}
    {a : BinAddress} (h : a ∈ keys (binsInsert k v bins)) :
    a = k ∨ a ∈ keys bins := by
  induction bins with
  | nil => simpa [binsInsert, keys] using h
  | cons e rest ih =>
    by_cases h1 : altb k e.1
    · simp only [binsInsert, if_pos h1, keys, List.map_cons, List.mem_cons] at h
      rcases h with h | h | h
      · exact Or.inl h
      · exact Or.inr (by simp [keys, h])
      · exact Or.inr (by simp [keys]; right; simpa [keys] using h)
    · by_cases h2 : k = e.1
      · simp only [binsInsert, if_neg h1, if_pos h2, keys, List.map_cons,
          List.mem_cons] at h
        rcases h with h | h
        · exact Or.inl h
        · exact Or.inr (by simp [keys]; right; simpa [keys] using h)
      · simp only [binsInsert, if_neg h1, if_neg h2, keys, List.map_cons,
          List.mem_cons] at h
        rcases h with h | h
        · exact Or.inr (by simp [keys, h])
        · rcases ih (by simpa [keys] using h) with h3 | h3
          · exact Or.inl h3
          · exact Or.inr (by simp [keys]; right; simpa [keys] using h3)

theorem keys_binsInsert_mem (k : BinAddress) (v : BinData) (bins : Bins) :
    k ∈ keys (binsInsert k v bins) := by
  induction bins with
  | nil => simp [binsInsert, keys]
  | cons e rest ih =>
    by_cases h1 : altb k e.1
    · simp [binsInsert, if_pos h1, keys]
    · by_cases h2 : k = e.1
      · simp [binsInsert, if_neg h1, if_pos h2, keys]
      · simp only [binsInsert, if_neg h1, if_neg h2, keys, List.map_cons]
        simp only [keys] at ih
        simp [ih]

theorem keys_binsInsert_sub {k : BinAddress} {v : BinData} {bins : Bins}
    {a : BinAddress} (ha : a ∈ keys bins) : a ∈ keys (binsInsert k v bins) := by
  induction bins with
  | nil => simp [keys] at ha
  | cons e rest ih =>
    simp only [keys, List.map_cons, List.mem_cons] at ha
    by_cases h1 : altb k e.1
    · simp only [binsInsert, if_pos h1, keys, List.map_cons, List.mem_cons]
      rcases ha with ha | ha
      · exact Or.inr (Or.inl ha)
      · exact Or.inr (Or.inr ha)
    · by_cases h2 : k = e.1
      · simp only [binsInsert, if_neg h1, if_pos h2, keys, List.map_cons,
          List.mem_cons]
        rcases ha with ha | ha
        · exact Or.inl (h2 ▸ ha)
        · exact Or.inr ha
      · simp only [binsInsert, if_neg h1, if_neg h2, keys, List.map_cons,
          List.mem_cons]
        rcases ha with ha | ha
        · exact Or.inl ha
        · exact Or.inr (ih ha)

theorem pairwise_binsInsert {k : BinAddress} {v : BinData} {bins : Bins}
    (hp : List.Pairwise altb (keys bins)) :
    List.Pairwise altb (keys (binsInsert k v bins)) := by
  induction bins with
  | nil => simp [binsInsert, keys]
  | cons e rest ih =>
    simp only [keys, List.map_cons, List.pairwise_cons] at hp
    obtain ⟨hhead, htail⟩ := hp
    by_cases h1 : altb k e.1
    · simp only [binsInsert, if_pos h1, keys, List.map_cons, List.pairwise_cons]
      refine ⟨?_, ?_, htail⟩
      · intro a ha
        simp only [List.mem_cons] at ha
        rcases ha with rfl | ha
        · exact h1
        · exact altb_trans h1 (hhead a ha)
      · exact hhead
    · by_cases h2 : k = e.1
      · simp only [binsInsert, if_neg h1, if_pos h2, keys, List.map_cons,
          List.pairwise_cons]
        exact ⟨fun a ha => h2 ▸ hhead a ha, htail⟩
      · simp only [binsInsert, if_neg h1, if_neg h2, keys, List.map_cons,
          List.pairwise_cons]
        refine ⟨?_, ih htail⟩
        intro a ha
        rcases mem_keys_binsInsert ha with rfl | ha
        · rcases not_altb_iff.mp h1 with rfl | h3
          · exact absurd rfl h2
          · exact h3
        · exact hhead a ha

theorem binsRemove_sublist (k : BinAddress) (bins : Bins) :
    List.Sublist (binsRemove k bins).2 bins := by
  induction bins with
  | nil => simp [binsRemove]
  | cons e rest ih =>
    by_cases he : e.1 = k
    · simp only [binsRemove, if_pos he]
      exact List.sublist_cons_self e rest
    · simp only [binsRemove, if_neg he]
      exact List.Sublist.cons₂ e ih

theorem pairwise_binsRemove {k : BinAddress} {bins : Bins}
    (hp : List.Pairwise altb (keys bins)) :
    List.Pairwise altb (keys (binsRemove k bins).2) :=
  List.Pairwise.sublist (List.Sublist.map Prod.fst (binsRemove_sublist k bins)) hp

theorem mem_binsRemove {k : BinAddress} {bins : Bins} {e : BinAddress × BinData}
    (h : e ∈ (binsRemove k bins).2) : e ∈ bins :=
  List.Sublist.mem h (binsRemove_sublist k bins)

theorem mem_keys_binsRemove {k a : BinAddress} {bins : Bins}
    (h : a ∈ keys (binsRemove k bins).2) : a ∈ keys bins := by
  simp only [keys, List.mem_map] at h ⊢
  obtain ⟨e, he, rfl⟩ := h
  exact ⟨e, mem_binsRemove he, rfl⟩

theorem mem_binsRemove_ne {k : BinAddress} {bins : Bins}
    {e : BinAddress × BinData} (he : e ∈ bins) (hne : e.1 ≠ k) :
    e ∈ (binsRemove k bins).2 := by
  induction bins with
  | nil => simp at he
  | cons b rest ih =>
    by_cases hb : b.1 = k
    · simp only [binsRemove, if_pos hb]
      rcases List.mem_cons.mp he with rfl | he2
      · exact absurd hb hne
      · exact he2
    · simp only [binsRemove, if_neg hb]
      rcases List.mem_cons.mp he with rfl | he2
      · exact List.mem_cons_self _ _
      · exact List.mem_cons_of_mem _ (ih he2)

theorem mem_keys_binsRemove_ne {k a : BinAddress} {bins : Bins}
    (ha : a ∈ keys bins) (hne : a ≠ k) : a ∈ keys (binsRemove k bins).2 := by
  simp only [keys, List.mem_map] at ha ⊢
  obtain ⟨e, he, rfl⟩ := ha
  exact ⟨e, mem_binsRemove_ne he hne, rfl⟩

theorem binsRemove_isSome {k : BinAddress} {bins : Bins}
    (h : k ∈ keys bins) : ∃ v, (binsRemove k bins).1 = some v := by
  induction bins with
  | nil => simp [keys] at h
  | cons e rest ih =>
    by_cases he : e.1 = k
    · exact ⟨e.2, by simp [binsRemove, he]⟩
    · simp only [keys, List.map_cons, List.mem_cons] at h
      rcases h with rfl | h
      · exact absurd rfl he
      · obtain ⟨v, hv⟩ := ih h
        exact ⟨v, by simp [binsRemove, he, hv]⟩

theorem binsRemove_not_mem {k : BinAddress} {bins : Bins}
    (hp : List.Pairwise altb (keys bins)) : k ∉ keys (binsRemove k bins).2 := by
  induction bins with
  | nil => simp [binsRemove, keys]
  | cons e rest ih =>
    simp only [keys, List.map_cons, List.pairwise_cons] at hp
    obtain ⟨hhead, htail⟩ := hp
    by_cases he : e.1 = k
    · simp only [binsRemove, if_pos he, keys]
      intro hmem
      subst he
      exact altb_irrefl e.1 (hhead e.1 hmem)
    · simp only [binsRemove, if_neg he, keys, List.map_cons]
      intro hmem
      rcases List.mem_cons.mp hmem with h1 | h1
      · exact he h1.symm
      · exact ih htail h1

theorem foldl_add_count (bins : Bins) (init : ℕ) :
    bins.foldl (fun s e => s + e.2.count) init = init + binsCount bins := by
  induction bins generalizing init with
  | nil => simp [binsCount]
  | cons e rest ih =>
    simp only [List.foldl_cons, binsCount, List.map_cons, List.sum_cons] at *
    rw [ih]
    omega

theorem count_eq_binsCount (h : Histogram) : h.count = binsCount h.bins := by
  unfold Histogram.count
  simpa using foldl_add_count h.bins 0

theorem binsCount_binsRemove {k : BinAddress} {bins : Bins} {v : BinData}
    (h : (binsRemove k bins).1 = some v) :
    binsCount (binsRemove k bins).2 + v.count = binsCount bins := by
  induction bins with
  | nil => simp [binsRemove] at h
  | cons e rest ih =>
    by_cases he : e.1 = k
    · simp only [binsRemove, if_pos he] at h ⊢
      injection h with h
      subst h
      simp [binsCount]
      omega
    · simp only [binsRemove, if_neg he] at h ⊢
      have := ih h
      simp only [binsCount, List.map_cons, List.sum_cons] at *
      omega

theorem binsCount_binsInsert_fresh {k : BinAddress} {v : BinData} {bins : Bins}
    (h : k ∉ keys bins) :
    binsCount (binsInsert k v bins) = binsCount bins + v.count := by
  induction bins with
  | nil => simp [binsInsert, binsCount]
  | cons e rest ih =>
    simp only [keys, List.map_cons, List.mem_cons, not_or] at h
    obtain ⟨hne, hrest⟩ := h
    by_cases h1 : altb k e.1
    · simp [binsInsert, if_pos h1, binsCount]
      omega
    · simp only [binsInsert, if_neg h1, if_neg hne, binsCount, List.map_cons,
        List.sum_cons]
      have := ih hrest
      simp only [binsCount] at this
      omega

theorem binsInsert_length_fresh {k : BinAddress} {v : BinData} {bins : Bins}
    (h : k ∉ keys bins) :
    (binsInsert k v bins).length = bins.length + 1 := by
  induction bins with
  | nil => simp [binsInsert]
  | cons e rest ih =>
    simp only [keys, List.map_cons, List.mem_cons, not_or] at h
    obtain ⟨hne, hrest⟩ := h
    by_cases h1 : altb k e.1
    · simp [binsInsert, if_pos h1]
    · simp only [binsInsert, if_neg h1, if_neg hne, List.length_cons]
      rw [ih hrest]

theorem binsRemove_some_mem {k : BinAddress} {bins : Bins} {v : BinData}
    (h : (binsRemove k bins).1 = some v) : k ∈ keys bins := by
  induction bins with
  | nil => simp [binsRemove] at h
  | cons e rest ih =>
    by_cases he : e.1 = k
    · simp [keys, ← he]
    · simp only [binsRemove, if_neg he] at h
      simp only [keys, List.map_cons, List.mem_cons]
      exact Or.inr (ih h)

theorem binsInsert_length_replace {k : BinAddress} {v : BinData} {bins : Bins}
    (h : k ∈ keys bins) (hp : List.Pairwise altb (keys bins)) :
    (binsInsert k v bins).length = bins.length := by
  induction bins with
  | nil => simp [keys] at h
  | cons e rest ih =>
    simp only [keys, List.map_cons, List.pairwise_cons] at hp
    obtain ⟨hhead, htail⟩ := hp
    simp only [keys, List.map_cons, List.mem_cons] at h
    by_cases hke : k = e.1
    · have h1 : ¬altb k e.1 := hke ▸ altb_irrefl k
      simp [binsInsert, if_neg h1, if_pos hke]
    · have h : k ∈ List.map Prod.fst rest := by
        rcases h with h | h
        · exact absurd h hke
        · exact h
      have h1 : ¬altb k e.1 := by
        intro h2
        exact altb_asymm (hhead k h) h2
      simp only [binsInsert, if_neg h1, if_neg hke, List.length_cons]
      rw [ih h htail]

theorem sorted_remove_insert_id {k : BinAddress} {bins : Bins} {v : BinData}
    (hp : List.Pairwise altb (keys bins))
    (h : (binsRemove k bins).1 = some v) :
    binsInsert k v (binsRemove k bins).2 = bins := by
  induction bins with
  | nil => simp [binsRemove] at h
  | cons e rest ih =>
    simp only [keys, List.map_cons, List.pairwise_cons] at hp
    obtain ⟨hhead, htail⟩ := hp
    by_cases he : e.1 = k
    · simp only [binsRemove, if_pos he] at h ⊢
      injection h with h
      subst h
      cases rest with
      | nil => simp [binsInsert, ← he]
      | cons b rest2 =>
        have hkb : altb k b.1 := he ▸ hhead b.1 (by simp [keys])
        simp only [binsInsert, if_pos hkb]
        rw [← he]
    · simp only [binsRemove, if_neg he] at h ⊢
      have hik := ih htail h
      have hek : altb e.1 k := hhead k (binsRemove_some_mem h)
      have h1 : ¬altb k e.1 := altb_asymm hek
      have h2 : k ≠ e.1 := fun heq => he heq.symm
      simp only [binsInsert, if_neg h1, if_neg h2]
      rw [hik]

theorem mem_binsInsert_cases {k : BinAddress} {v : BinData} {bins : Bins}
    {e : BinAddress × BinData} (h : e ∈ binsInsert k v bins) :
    e = (k, v) ∨ e ∈ bins := by
  induction bins with
  | nil => simpa [binsInsert] using h
  | cons b rest ih =>
    by_cases h1 : altb k b.1
    · simp only [binsInsert, if_pos h1, List.mem_cons] at h
      rcases h with h | h | h
      · exact Or.inl h
      · exact Or.inr (by simp [h])
      · exact Or.inr (List.mem_cons_of_mem _ h)
    · by_cases h2 : k = b.1
      · simp only [binsInsert, if_neg h1, if_pos h2, List.mem_cons] at h
        rcases h with h | h
        · exact Or.inl h
        · exact Or.inr (List.mem_cons_of_mem _ h)
      · simp only [binsInsert, if_neg h1, if_neg h2, List.mem_cons] at h
        rcases h with h | h
        · exact Or.inr (by simp [h])
        · rcases ih h with h3 | h3
          · exact Or.inl h3
          · exact Or.inr (List.mem_cons_of_mem _ h3)

/-- One compression step never increases the bin count past its input. -/
theorem pairwise_shrinkStep {n : ℕ} {bins : Bins} {d : BinDistance}
    {rest : List BinDistance} (hp : List.Pairwise altb (keys bins)) :
    List.Pairwise altb (keys (shrinkStep n bins d rest).1) := by
  rcases hl : binsRemove d.left bins with ⟨ol, bins1⟩
  rcases hr : binsRemove d.right bins1 with ⟨orr, bins2⟩
  have hp1 : List.Pairwise altb (keys bins1) := by
    have := pairwise_binsRemove (k := d.left) hp
    rw [hl] at this
    exact this
  have hp2 : List.Pairwise altb (keys bins2) := by
    have := pairwise_binsRemove (k := d.right) hp1
    rw [hr] at this
    exact this
  cases ol with
  | some dl =>
    cases orr with
    | some dr =>
      simp only [shrinkStep, hl, hr]
      exact pairwise_binsInsert hp2
    | none =>
      simp only [shrinkStep, hl, hr]
      exact pairwise_binsInsert hp2
  | none =>
    cases orr with
    | some dr =>
      simp only [shrinkStep, hl, hr]
      exact pairwise_binsInsert hp2
    | none =>
      simp only [shrinkStep, hl, hr]
      exact hp2

theorem binsRemove_some_val {k : BinAddress} {bins : Bins} {v : BinData}
    (h : (binsRemove k bins).1 = some v) : (k, v) ∈ bins := by
  induction bins with
  | nil => simp [binsRemove] at h
  | cons e rest ih =>
    by_cases he : e.1 = k
    · simp only [binsRemove, if_pos he] at h
      injection h with h
      have : (k, v) = e := by
        cases e
        simp_all
      simp [this]
    · simp only [binsRemove, if_neg he] at h
      exact List.mem_cons_of_mem _ (ih h)

theorem counts_pos_shrinkStep {n : ℕ} {bins : Bins} {d : BinDistance}
    {rest : List BinDistance} (hc : ∀ e ∈ bins, 1 ≤ e.2.count) :
    ∀ e ∈ (shrinkStep n bins d rest).1, 1 ≤ e.2.count := by
  rcases hl : binsRemove d.left bins with ⟨ol, bins1⟩
  rcases hr : binsRemove d.right bins1 with ⟨orr, bins2⟩
  have hc1 : ∀ e ∈ bins1, 1 ≤ e.2.count := by
    intro e he
    refine hc e ?_
    have : e ∈ (binsRemove d.left bins).2 := by rw [hl]; exact he
    exact mem_binsRemove this
  have hc2 : ∀ e ∈ bins2, 1 ≤ e.2.count := by
    intro e he
    refine hc1 e ?_
    have : e ∈ (binsRemove d.right bins1).2 := by rw [hr]; exact he
    exact mem_binsRemove this
  have hvl : ∀ v, ol = some v → 1 ≤ v.count := by
    intro v hv
    have h1 : (binsRemove d.left bins).1 = some v := by rw [hl, hv]
    exact hc _ (binsRemove_some_val h1)
  have hvr : ∀ v, orr = some v → 1 ≤ v.count := by
    intro v hv
    have h1 : (binsRemove d.right bins1).1 = some v := by rw [hr, hv]
    exact hc1 _ (binsRemove_some_val h1)
  cases ol with
  | some dl =>
    cases orr with
    | some dr =>
      simp only [shrinkStep, hl, hr]
      intro e he
      rcases mem_binsInsert_cases he with rfl | he2
      · have := hvl dl rfl
        simp [BinData.merge]
        omega
      · exact hc2 e he2
    | none =>
      simp only [shrinkStep, hl, hr]
      intro e he
      rcases mem_binsInsert_cases he with rfl | he2
      · exact hvl dl rfl
      · exact hc2 e he2
  | none =>
    cases orr with
    | some dr =>
      simp only [shrinkStep, hl, hr]
      intro e he
      rcases mem_binsInsert_cases he with rfl | he2
      · exact hvr dr rfl
      · exact hc2 e he2
    | none =>
      simp only [shrinkStep, hl, hr]
      exact hc2

theorem shrinkGo_length {n : ℕ} {bins : Bins} {dists : List BinDistance}
    {p : Bins × List BinDistance} (h : shrinkGo n bins dists = some p) :
    p.1.length ≤ n := by
  induction bins, dists using shrinkGo.induct n with
  | case1 bins dists hle =>
    unfold shrinkGo at h
    rw [if_pos hle] at h
    injection h with h
    exact h ▸ hle
  | case2 bins dists hle hpop =>
    unfold shrinkGo at h
    rw [if_neg hle, hpop] at h
    exact absurd h (by simp)
  | case3 bins dists hle d rest hpop ih =>
    unfold shrinkGo at h
    rw [if_neg hle, hpop] at h
    exact ih h

theorem shrinkGo_pairwise {n : ℕ} {bins : Bins} {dists : List BinDistance}
    {p : Bins × List BinDistance} (h : shrinkGo n bins dists = some p)
    (hp : List.Pairwise altb (keys bins)) :
    List.Pairwise altb (keys p.1) := by
  induction bins, dists using shrinkGo.induct n with
  | case1 bins dists hle =>
    unfold shrinkGo at h
    rw [if_pos hle] at h
    injection h with h
    exact h ▸ hp
  | case2 bins dists hle hpop =>
    unfold shrinkGo at h
    rw [if_neg hle, hpop] at h
    exact absurd h (by simp)
  | case3 bins dists hle d rest hpop ih =>
    unfold shrinkGo at h
    rw [if_neg hle, hpop] at h
    exact ih h (pairwise_shrinkStep hp)

theorem shrinkGo_counts_pos {n : ℕ} {bins : Bins} {dists : List BinDistance}
    {p : Bins × List BinDistance} (h : shrinkGo n bins dists = some p)
    (hc : ∀ e ∈ bins, 1 ≤ e.2.count) :
    ∀ e ∈ p.1, 1 ≤ e.2.count := by
  induction bins, dists using shrinkGo.induct n with
  | case1 bins dists hle =>
    unfold shrinkGo at h
    rw [if_pos hle] at h
    injection h with h
    exact h ▸ hc
  | case2 bins dists hle hpop =>
    unfold shrinkGo at h
    rw [if_neg hle, hpop] at h
    exact absurd h (by simp)
  | case3 bins dists hle d rest hpop ih =>
    unfold shrinkGo at h
    rw [if_neg hle, hpop] at h
    exact ih h (counts_pos_shrinkStep hc)

theorem head?_mem {α : Type} {l : List α} {a : α} (h : l.head? = some a) :
    a ∈ l := by
  cases l with
  | nil => simp at h
  | cons b rest =>
    simp only [List.head?_cons] at h
    injection h with h
    simp [h]

theorem getLast?_mem {α : Type} {l : List α} {a : α} (h : l.getLast? = some a) :
    a ∈ l := by
  induction l with
  | nil => simp at h
  | cons b rest ih =>
    cases rest with
    | nil =>
      simp only [List.getLast?_singleton] at h
      injection h with h
      simp [h]
    | cons c rest2 =>
      rw [List.getLast?_cons_cons] at h
      exact List.mem_cons_of_mem _ (ih h)

theorem binsPred_mem {k : BinAddress} {bins : Bins} {e : BinAddress × BinData}
    (h : binsPred k bins = some e) : e ∈ bins ∧ alte e.1 k := by
  unfold binsPred at h
  have h1 := getLast?_mem h
  have h2 := List.mem_filter.mp h1
  exact ⟨h2.1, by simpa using h2.2⟩

theorem binsSucc_mem {k : BinAddress} {bins : Bins} {e : BinAddress × BinData}
    (h : binsSucc k bins = some e) : e ∈ bins ∧ altb k e.1 := by
  unfold binsSucc at h
  have h1 := head?_mem h
  have h2 := List.mem_filter.mp h1
  exact ⟨h2.1, by simpa using h2.2⟩

theorem binsSucc_none_ne_nil {k : BinAddress} {bins : Bins}
    (hne : bins ≠ []) (hall : ∀ e ∈ bins, ¬alte e.1 k) : binsSucc k bins ≠ none := by
  unfold binsSucc
  cases bins with
  | nil => exact absurd rfl hne
  | cons b rest =>
    have hb : altb k b.1 := by
      have h2 := hall b (by simp)
      have hne2 : b.1 ≠ k := fun heq => h2 (Or.inr heq)
      rcases altb_total hne2 with h1 | h1
      · exact absurd (Or.inl h1) h2
      · exact h1
    simp [List.filter_cons, hb]

/-! ### The fold of `merge`/`merge_borrowed` over the other histogram -/

theorem mem_keys_binsMergeInsert {k : BinAddress} {v : BinData} {bins : Bins}
    {a : BinAddress} (h : a ∈ keys (binsMergeInsert k v bins)) :
    a = k ∨ a ∈ keys bins := by
  induction bins with
  | nil => simpa [binsMergeInsert, keys] using h
  | cons b rest ih =>
    by_cases hb1 : altb k b.1
    · simp only [binsMergeInsert, if_pos hb1, keys, List.map_cons,
        List.mem_cons] at h ⊢
      rcases h with h | h | h
      · exact Or.inl h
      · exact Or.inr (Or.inl h)
      · exact Or.inr (Or.inr h)
    · by_cases hb2 : k = b.1
      · simp only [binsMergeInsert, if_neg hb1, if_pos hb2, keys,
          List.map_cons, List.mem_cons] at h ⊢
        rcases h with h | h
        · exact Or.inr (Or.inl h)
        · exact Or.inr (Or.inr h)
      · simp only [binsMergeInsert, if_neg hb1, if_neg hb2, keys,
          List.map_cons, List.mem_cons] at h ⊢
        rcases h with h | h
        · exact Or.inr (Or.inl h)
        · rcases ih h with h3 | h3
          · exact Or.inl h3
          · exact Or.inr (Or.inr h3)

theorem pairwise_binsMergeInsert {k : BinAddress} {v : BinData} {bins : Bins}
    (hp : List.Pairwise altb (keys bins)) :
    List.Pairwise altb (keys (binsMergeInsert k v bins)) := by
  induction bins with
  | nil => simp [binsMergeInsert, keys]
  | cons e rest ih =>
    simp only [keys, List.map_cons, List.pairwise_cons] at hp
    obtain ⟨hhead, htail⟩ := hp
    by_cases h1 : altb k e.1
    · simp only [binsMergeInsert, if_pos h1, keys, List.map_cons,
        List.pairwise_cons]
      refine ⟨?_, ?_, htail⟩
      · intro a ha
        simp only [List.mem_cons] at ha
        rcases ha with rfl | ha
        · exact h1
        · exact altb_trans h1 (hhead a ha)
      · exact hhead
    · by_cases h2 : k = e.1
      · simp only [binsMergeInsert, if_neg h1, if_pos h2, keys, List.map_cons,
          List.pairwise_cons]
        exact ⟨hhead, htail⟩
      · simp only [binsMergeInsert, if_neg h1, if_neg h2, keys, List.map_cons,
          List.pairwise_cons]
        refine ⟨?_, ih htail⟩
        intro a ha
        rcases mem_keys_binsMergeInsert (by simpa [keys] using ha) with rfl | ha2
        · rcases not_altb_iff.mp h1 with rfl | h3
          · exact absurd rfl h2
          · exact h3
        · exact hhead a ha2

theorem binsCount_binsMergeInsert (k : BinAddress) (v : BinData) (bins : Bins) :
    binsCount (binsMergeInsert k v bins) = binsCount bins + v.count := by
  induction bins with
  | nil => simp [binsMergeInsert, binsCount]
  | cons e rest ih =>
    by_cases h1 : altb k e.1
    · simp [binsMergeInsert, if_pos h1, binsCount]
      omega
    · by_cases h2 : k = e.1
      · simp [binsMergeInsert, if_neg h1, if_pos h2, binsCount, BinData.merge]
        omega
      · simp only [binsMergeInsert, if_neg h1, if_neg h2, binsCount,
          List.map_cons, List.sum_cons]
        simp only [binsCount] at ih
        omega

theorem counts_pos_binsMergeInsert {k : BinAddress} {v : BinData} {bins : Bins}
    (hv : 1 ≤ v.count) :
    (∀ e ∈ bins, 1 ≤ e.2.count) →
      ∀ e ∈ binsMergeInsert k v bins, 1 ≤ e.2.count := by
  induction bins with
  | nil =>
    intro _ e2 he2
    simp only [binsMergeInsert, List.mem_singleton] at he2
    exact he2 ▸ hv
  | cons b rest ih =>
    intro hc e2 he2
    by_cases h1 : altb k b.1
    · simp only [binsMergeInsert, if_pos h1, List.mem_cons] at he2
      rcases he2 with rfl | rfl | he2
      · exact hv
      · exact hc e2 (by simp)
      · exact hc e2 (List.mem_cons_of_mem _ he2)
    · by_cases h2 : k = b.1
      · simp only [binsMergeInsert, if_neg h1, if_pos h2, List.mem_cons] at he2
        rcases he2 with rfl | he2
        · have := hc b (by simp)
          simp [BinData.merge]
          omega
        · exact hc e2 (List.mem_cons_of_mem _ he2)
      · simp only [binsMergeInsert, if_neg h1, if_neg h2, List.mem_cons] at he2
        rcases he2 with rfl | he2
        · exact hc e2 (by simp)
        · exact ih (fun e3 he3 => hc e3 (List.mem_cons_of_mem _ he3)) e2 he2

/-- The union fold at the start of `merge`: totals add exactly. -/
theorem binsCount_mergeFold (other : Bins) (acc : Bins) :
    binsCount (other.foldl (fun b e => binsMergeInsert e.1 e.2 b) acc) =
      binsCount acc + binsCount other := by
  induction other generalizing acc with
  | nil => simp [binsCount]
  | cons e rest ih =>
    simp only [List.foldl_cons]
    rw [ih, binsCount_binsMergeInsert]
    simp only [binsCount, List.map_cons, List.sum_cons]
    omega

theorem pairwise_mergeFold (other : Bins) (acc : Bins)
    (hp : List.Pairwise altb (keys acc)) :
    List.Pairwise altb
      (keys (other.foldl (fun b e => binsMergeInsert e.1 e.2 b) acc)) := by
  induction other generalizing acc with
  | nil => exact hp
  | cons e rest ih =>
    simp only [List.foldl_cons]
    exact ih _ (pairwise_binsMergeInsert hp)

theorem counts_pos_mergeFold (other : Bins) (acc : Bins)
    (hacc : ∀ e ∈ acc, 1 ≤ e.2.count) (hoth : ∀ e ∈ other, 1 ≤ e.2.count) :
    ∀ e ∈ other.foldl (fun b e => binsMergeInsert e.1 e.2 b) acc,
      1 ≤ e.2.count := by
  induction other generalizing acc with
  | nil => exact hacc
  | cons b rest ih =>
    simp only [List.foldl_cons]
    exact ih _
      (counts_pos_binsMergeInsert (hoth b (by simp)) hacc)
      (fun e he => hoth e (List.mem_cons_of_mem _ he))

theorem shrink_to_fit_some {h h' : Histogram}
    (hs : Histogram.shrink_to_fit h = some h') :
    shrinkGo h.n_bins h.bins h.distances = some (h'.bins, h'.distances) ∧
      h'.n_bins = h.n_bins := by
  unfold Histogram.shrink_to_fit at hs
  cases hsg : shrinkGo h.n_bins h.bins h.distances with
  | none => rw [hsg] at hs; simp at hs
  | some p =>
    rw [hsg] at hs
    simp only [Option.map_some'] at hs
    injection hs with hs
    subst hs
    exact ⟨rfl, rfl⟩

/-- Shape of the map passed to compression by `insert`: either the fold
into the covering predecessor bin or the fresh degenerate bin. -/
theorem insert_bins_shape {h : Histogram} {y : ℚ} {c : ℕ} {h' : Histogram}
    (hins : Histogram.insert h y c = some h') :
    ∃ bins1 dists1,
      Histogram.shrink_to_fit ⟨bins1, dists1, h.n_bins⟩ = some h' ∧
      ((∃ e, e ∈ h.bins ∧
          bins1 = binsInsert e.1 ⟨e.2.count + c, e.2.sum + y⟩ h.bins) ∨
        bins1 = binsInsert (BinAddress.init y) (BinData.init y) h.bins) := by
  unfold Histogram.insert at hins
  dsimp only at hins
  cases hpred : binsPred (BinAddress.init y) h.bins with
  | some e =>
    rw [hpred] at hins
    dsimp only at hins
    by_cases hcov : (BinAddress.init y).right ≤ e.1.right
    · rw [if_pos hcov] at hins
      exact ⟨_, _, hins, Or.inl ⟨e, (binsPred_mem hpred).1, rfl⟩⟩
    · rw [if_neg hcov] at hins
      exact ⟨_, _, hins, Or.inr rfl⟩
  | none =>
    rw [hpred] at hins
    dsimp only at hins
    exact ⟨_, _, hins, Or.inr rfl⟩

/-- Shape of the map passed to compression by `merge_borrowed`. -/
theorem merge_bins_shape {h g : Histogram} {h' : Histogram}
    (hm : Histogram.merge_borrowed h g = some h') :
    Histogram.shrink_to_fit
      ⟨g.bins.foldl (fun b e => binsMergeInsert e.1 e.2 b) h.bins,
        rebuildList (g.bins.foldl (fun b e => binsMergeInsert e.1 e.2 b) h.bins),
        h.n_bins⟩ = some h' := hm

/-! ### Invariants of all reachable histograms -/

theorem reached_inv {h : Histogram} (hr : Reached h) :
    List.Pairwise altb (keys h.bins) ∧ (∀ e ∈ h.bins, 1 ≤ e.2.count) ∧
      h.bins.length ≤ h.n_bins := by
  induction hr with
  | new n => simp [Histogram.new, keys]
  | ins y c hr hins ih =>
    obtain ⟨ihp, ihc, ihl⟩ := ih
    obtain ⟨bins1, dists1, hs, hshape⟩ := insert_bins_shape hins
    obtain ⟨hsg, hn⟩ := shrink_to_fit_some hs
    have hp1 : List.Pairwise altb (keys bins1) := by
      rcases hshape with ⟨e, he, rfl⟩ | rfl
      · exact pairwise_binsInsert ihp
      · exact pairwise_binsInsert ihp
    have hc1 : ∀ e2 ∈ bins1, 1 ≤ e2.2.count := by
      rcases hshape with ⟨e, he, rfl⟩ | rfl
      · intro e2 he2
        rcases mem_binsInsert_cases he2 with rfl | he3
        · have := ihc e he
          simp
          omega
        · exact ihc e2 he3
      · intro e2 he2
        rcases mem_binsInsert_cases he2 with rfl | he3
        · simp [BinData.init]
        · exact ihc e2 he3
    refine ⟨?_, ?_, ?_⟩
    · have := shrinkGo_pairwise hsg hp1
      exact this
    · have := shrinkGo_counts_pos hsg hc1
      exact this
    · have := shrinkGo_length hsg
      simpa [hn] using this
  | mrg hr hg hm ih ihg =>
    obtain ⟨ihp, ihc, ihl⟩ := ih
    obtain ⟨igp, igc, igl⟩ := ihg
    have hs := merge_bins_shape hm
    obtain ⟨hsg, hn⟩ := shrink_to_fit_some hs
    refine ⟨?_, ?_, ?_⟩
    · exact shrinkGo_pairwise hsg (pairwise_mergeFold _ _ ihp)
    · exact shrinkGo_counts_pos hsg (counts_pos_mergeFold _ _ ihc igc)
    · have := shrinkGo_length hsg
      simpa [hn] using this
  | mrgb hr hg hm ih ihg =>
    obtain ⟨ihp, ihc, ihl⟩ := ih
    obtain ⟨igp, igc, igl⟩ := ihg
    have hs := merge_bins_shape hm
    obtain ⟨hsg, hn⟩ := shrink_to_fit_some hs
    refine ⟨?_, ?_, ?_⟩
    · exact shrinkGo_pairwise hsg (pairwise_mergeFold _ _ ihp)
    · exact shrinkGo_counts_pos hsg (counts_pos_mergeFold _ _ ihc igc)
    · have := shrinkGo_length hsg
      simpa [hn] using this

/-! ### Fuel-indexed evaluator for the compression loop

`shrinkGo` is defined by well-founded recursion, so closed instances are
evaluated through the structurally recursive `shrinkGoF` (outer `none`
means out of fuel, inner `none` the heap-pop panic) and carried over by
soundness. -/

def shrinkGoF (n : ℕ) : ℕ → Bins → List BinDistance →
    Option (Option (Bins × List BinDistance))
  | 0, _, _ => none
  | fuel + 1, bins, dists =>
    if bins.length ≤ n then some (some (bins, dists))
    else
      match heapPop dists with
      | none => some none
      | some (d, rest) =>
        shrinkGoF n fuel (shrinkStep n bins d rest).1 (shrinkStep n bins d rest).2

theorem shrinkGoF_sound {n fuel : ℕ} {bins : Bins} {dists : List BinDistance}
    {r : Option (Bins × List BinDistance)}
    (h : shrinkGoF n fuel bins dists = some r) : shrinkGo n bins dists = r := by
  induction fuel generalizing bins dists with
  | zero => simp [shrinkGoF] at h
  | succ fuel ih =>
    rw [shrinkGoF] at h
    unfold shrinkGo
    by_cases hle : bins.length ≤ n
    · rw [if_pos hle] at h ⊢
      injection h
    · rw [if_neg hle] at h ⊢
      cases hpop : heapPop dists with
      | none =>
        rw [hpop] at h
        dsimp only at h ⊢
        injection h
      | some p =>
        obtain ⟨d, rest⟩ := p
        rw [hpop] at h
        dsimp only at h ⊢
        exact ih h

def shrinkToFitF (fuel : ℕ) (h : Histogram) : Option (Option Histogram) :=
  (shrinkGoF h.n_bins fuel h.bins h.distances).map
    (Option.map fun p => ⟨p.1, p.2, h.n_bins⟩)

theorem shrinkToFitF_sound {fuel : ℕ} {h : Histogram} {r : Option Histogram}
    (hs : shrinkToFitF fuel h = some r) : Histogram.shrink_to_fit h = r := by
  unfold shrinkToFitF at hs
  unfold Histogram.shrink_to_fit
  cases hg : shrinkGoF h.n_bins fuel h.bins h.distances with
  | none => rw [hg] at hs; simp at hs
  | some q =>
    rw [hg] at hs
    simp only [Option.map_some'] at hs
    injection hs with hs
    rw [shrinkGoF_sound hg]
    exact hs

def insertF (fuel : ℕ) (h : Histogram) (y : ℚ) (count : ℕ) :
    Option (Option Histogram) :=
  let newAddr := BinAddress.init y
  let newData := BinData.init y
  match binsPred newAddr h.bins with
  | some e =>
    if newAddr.right ≤ e.1.right then
      shrinkToFitF fuel
        ⟨binsInsert e.1 ⟨e.2.count + count, e.2.sum + y⟩ h.bins, h.distances, h.n_bins⟩
    else
      let d1 := h.distances ++ [BinDistance.new e.1 newAddr]
      let d2 :=
        match binsSucc newAddr h.bins with
        | some s => d1 ++ [BinDistance.new newAddr s.1]
        | none => d1
      shrinkToFitF fuel ⟨binsInsert newAddr newData h.bins, d2, h.n_bins⟩
  | none =>
    let d2 :=
      match binsSucc newAddr h.bins with
      | some s => h.distances ++ [BinDistance.new newAddr s.1]
      | none => h.distances
    shrinkToFitF fuel ⟨binsInsert newAddr newData h.bins, d2, h.n_bins⟩

theorem insertF_sound {fuel : ℕ} {h : Histogram} {y : ℚ} {c : ℕ}
    {r : Option Histogram} (hf : insertF fuel h y c = some r) :
    Histogram.insert h y c = r := by
  unfold insertF at hf
  unfold Histogram.insert
  dsimp only at hf ⊢
  cases hpred : binsPred (BinAddress.init y) h.bins with
  | some e =>
    rw [hpred] at hf
    dsimp only at hf ⊢
    by_cases hcov : (BinAddress.init y).right ≤ e.1.right
    · rw [if_pos hcov] at hf ⊢
      exact shrinkToFitF_sound hf
    · rw [if_neg hcov] at hf ⊢
      exact shrinkToFitF_sound hf
  | none =>
    rw [hpred] at hf
    dsimp only at hf ⊢
    exact shrinkToFitF_sound hf

def mergeBorrowedF (fuel : ℕ) (h other : Histogram) : Option (Option Histogram) :=
  let bins' := other.bins.foldl (fun b e => binsMergeInsert e.1 e.2 b) h.bins
  shrinkToFitF fuel ⟨bins', rebuildList bins', h.n_bins⟩

theorem mergeBorrowedF_sound {fuel : ℕ} {h other : Histogram}
    {r : Option Histogram} (hf : mergeBorrowedF fuel h other = some r) :
    Histogram.merge_borrowed h other = r := shrinkToFitF_sound hf

/-! ### Heap-pop membership -/

theorem heapPop_fst_mem {l : List BinDistance} {d : BinDistance}
    {rest : List BinDistance} (h : heapPop l = some (d, rest)) : d ∈ l := by
  induction l generalizing d rest with
  | nil => simp [heapPop] at h
  | cons a t ih =>
    simp only [heapPop] at h
    revert h
    cases hp : heapPop t with
    | none =>
      intro h
      injection h with h'
      have ha : a = d := congrArg Prod.fst h'
      simp [ha]
    | some p =>
      obtain ⟨m, r⟩ := p
      intro h
      dsimp only at h
      by_cases hle : a.distance ≤ m.distance
      · rw [if_pos hle] at h
        injection h with h'
        have ha : a = d := congrArg Prod.fst h'
        simp [ha]
      · rw [if_neg hle] at h
        injection h with h'
        have hm : m = d := congrArg Prod.fst h'
        exact List.mem_cons_of_mem _ (hm ▸ ih hp)

theorem heapPop_rest_mem {l : List BinDistance} {d : BinDistance}
    {rest : List BinDistance} (h : heapPop l = some (d, rest)) :
    ∀ a ∈ rest, a ∈ l := by
  induction l generalizing d rest with
  | nil => simp [heapPop] at h
  | cons a t ih =>
    simp only [heapPop] at h
    revert h
    cases hp : heapPop t with
    | none =>
      intro h
      injection h with h'
      have hr : [] = rest := congrArg Prod.snd h'
      rw [← hr]
      intro x hx
      simp at hx
    | some p =>
      obtain ⟨m, r⟩ := p
      intro h
      dsimp only at h
      by_cases hle : a.distance ≤ m.distance
      · rw [if_pos hle] at h
        injection h with h'
        have hr : t = rest := congrArg Prod.snd h'
        rw [← hr]
        intro x hx
        exact List.mem_cons_of_mem _ hx
      · rw [if_neg hle] at h
        injection h with h'
        have hr : a :: r = rest := congrArg Prod.snd h'
        rw [← hr]
        intro x hx
        rcases List.mem_cons.mp hx with rfl | hx
        · exact List.mem_cons_self _ _
        · exact List.mem_cons_of_mem _ (ih hp x hx)

theorem heapPop_mem_of_ne {l : List BinDistance} {d : BinDistance}
    {rest : List BinDistance} (h : heapPop l = some (d, rest)) :
    ∀ a ∈ l, a ≠ d → a ∈ rest := by
  induction l generalizing d rest with
  | nil => simp [heapPop] at h
  | cons a t ih =>
    simp only [heapPop] at h
    revert h
    cases hp : heapPop t with
    | none =>
      intro h
      injection h with h'
      have ha : a = d := congrArg Prod.fst h'
      have ht : t = [] := heapPop_none hp
      subst ht
      intro x hx hne
      rcases List.mem_cons.mp hx with rfl | hx
      · exact absurd ha hne
      · simp at hx
    | some p =>
      obtain ⟨m, r⟩ := p
      intro h
      dsimp only at h
      by_cases hle : a.distance ≤ m.distance
      · rw [if_pos hle] at h
        injection h with h'
        have ha : a = d := congrArg Prod.fst h'
        have hr : t = rest := congrArg Prod.snd h'
        intro x hx hne
        rcases List.mem_cons.mp hx with rfl | hx
        · exact absurd ha hne
        · exact hr ▸ hx
      · rw [if_neg hle] at h
        injection h with h'
        have hm : m = d := congrArg Prod.fst h'
        have hr : a :: r = rest := congrArg Prod.snd h'
        intro x hx hne
        rcases List.mem_cons.mp hx with rfl | hx
        · exact hr ▸ List.mem_cons_self _ _
        · exact hr ▸ List.mem_cons_of_mem _ (ih hp x hx (hm ▸ hne))

/-! ### Extremal properties of the predecessor / successor queries -/

theorem alte_antisymm {a b : BinAddress} (h1 : alte a b) (h2 : alte b a) :
    a = b := by
  rcases h1 with h1 | h1
  · rcases h2 with h2 | h2
    · exact absurd h2 (altb_asymm h1)
    · exact h2.symm
  · exact h1

theorem alte_refl (a : BinAddress) : alte a a := Or.inr rfl

theorem altb_of_alte_of_altb {a b c : BinAddress} (h1 : alte a b)
    (h2 : altb b c) : altb a c := by
  rcases h1 with h1 | rfl
  · exact altb_trans h1 h2
  · exact h2

theorem altb_of_altb_of_alte {a b c : BinAddress} (h1 : altb a b)
    (h2 : alte b c) : altb a c := by
  rcases h2 with h2 | rfl
  · exact altb_trans h1 h2
  · exact h1

theorem getLast?_sorted_max {l : Bins} (hp : List.Pairwise altb (keys l))
    {e : BinAddress × BinData} (h : l.getLast? = some e) :
    ∀ e2 ∈ l, alte e2.1 e.1 := by
  induction l with
  | nil => simp at h
  | cons b t ih =>
    simp only [keys, List.map_cons, List.pairwise_cons] at hp
    obtain ⟨hhead, htail⟩ := hp
    cases t with
    | nil =>
      simp only [List.getLast?_singleton] at h
      injection h with h
      intro e2 he2
      rcases List.mem_cons.mp he2 with rfl | he2
      · exact h ▸ alte_refl _
      · simp at he2
    | cons c t2 =>
      rw [List.getLast?_cons_cons] at h
      have hmem := getLast?_mem h
      intro e2 he2
      rcases List.mem_cons.mp he2 with rfl | he2
      · exact Or.inl (hhead e.1 (List.mem_map_of_mem Prod.fst hmem))
      · exact ih htail h e2 he2

theorem head?_sorted_min {l : Bins} (hp : List.Pairwise altb (keys l))
    {e : BinAddress × BinData} (h : l.head? = some e) :
    ∀ e2 ∈ l, alte e.1 e2.1 := by
  cases l with
  | nil => simp at h
  | cons b t =>
    simp only [List.head?_cons] at h
    injection h with h
    subst h
    simp only [keys, List.map_cons, List.pairwise_cons] at hp
    obtain ⟨hhead, htail⟩ := hp
    intro e2 he2
    rcases List.mem_cons.mp he2 with rfl | he2
    · exact alte_refl _
    · exact Or.inl (hhead e2.1 (List.mem_map_of_mem Prod.fst he2))

theorem binsPred_max {k : BinAddress} {bins : Bins}
    (hp : List.Pairwise altb (keys bins)) {e : BinAddress × BinData}
    (h : binsPred k bins = some e) :
    ∀ e2 ∈ bins, alte e2.1 k → alte e2.1 e.1 := by
  unfold binsPred at h
  intro e2 he2 hle
  have hpf : List.Pairwise altb (keys (bins.filter fun x => decide (alte x.1 k))) :=
    List.Pairwise.sublist (List.Sublist.map Prod.fst (List.filter_sublist bins)) hp
  have hmem : e2 ∈ bins.filter fun x => decide (alte x.1 k) :=
    List.mem_filter.mpr ⟨he2, by simpa using hle⟩
  exact getLast?_sorted_max hpf h e2 hmem

theorem binsPred_none {k : BinAddress} {bins : Bins}
    (h : binsPred k bins = none) : ∀ e ∈ bins, ¬alte e.1 k := by
  intro e he hle
  have hmem : e ∈ bins.filter fun x => decide (alte x.1 k) :=
    List.mem_filter.mpr ⟨he, by simpa using hle⟩
  unfold binsPred at h
  rcases List.getLast?_eq_none_iff.mp h with hnil
  rw [hnil] at hmem
  simp at hmem

theorem binsSucc_min {k : BinAddress} {bins : Bins}
    (hp : List.Pairwise altb (keys bins)) {s : BinAddress × BinData}
    (h : binsSucc k bins = some s) :
    ∀ e2 ∈ bins, altb k e2.1 → alte s.1 e2.1 := by
  unfold binsSucc at h
  intro e2 he2 hlt
  have hpf : List.Pairwise altb (keys (bins.filter fun x => decide (altb k x.1))) :=
    List.Pairwise.sublist (List.Sublist.map Prod.fst (List.filter_sublist bins)) hp
  have hmem : e2 ∈ bins.filter fun x => decide (altb k x.1) :=
    List.mem_filter.mpr ⟨he2, by simpa using hlt⟩
  exact head?_sorted_min hpf h e2 hmem

theorem mem_keys_exists_val {k : BinAddress} {bins : Bins}
    (h : k ∈ keys bins) : ∃ v, (k, v) ∈ bins := by
  simp only [keys, List.mem_map] at h
  obtain ⟨e, he, heq⟩ := h
  exact ⟨e.2, by rwa [show (k, e.2) = e from Prod.ext heq.symm rfl]⟩

/-! ### Base case of the compression loop -/

theorem shrinkGo_base {n : ℕ} {bins : Bins} (dists : List BinDistance)
    (h : bins.length ≤ n) : shrinkGo n bins dists = some (bins, dists) := by
  unfold shrinkGo
  rw [if_pos h]

theorem shrinkGo_step_eq {n : ℕ} {bins : Bins} {dists : List BinDistance}
    (hle : ¬bins.length ≤ n) {d : BinDistance} {rest : List BinDistance}
    (hpop : heapPop dists = some (d, rest)) :
    shrinkGo n bins dists =
      shrinkGo n (shrinkStep n bins d rest).1 (shrinkStep n bins d rest).2 := by
  conv_lhs => unfold shrinkGo
  rw [if_neg hle, hpop]

theorem shrink_to_fit_isSome_of {h : Histogram}
    (hs : (shrinkGo h.n_bins h.bins h.distances).isSome) :
    (Histogram.shrink_to_fit h).isSome := by
  unfold Histogram.shrink_to_fit
  cases hg : shrinkGo h.n_bins h.bins h.distances with
  | none => rw [hg] at hs; simp at hs
  | some p => simp

/-- While compressing, as long as the heap holds one non-degenerate entry
whose two addresses are both present, the pop-merge loop cannot panic:
stale pops only shrink the heap above that entry, and a valid pop brings
the map within budget. -/
theorem shrinkGo_isSome {n : ℕ} {bins : Bins} {dists : List BinDistance}
    (hp : List.Pairwise altb (keys bins)) (hlen : bins.length ≤ n + 1)
    (hv : bins.length ≤ n ∨
      ∃ d ∈ dists, d.left ≠ d.right ∧ d.left ∈ keys bins ∧ d.right ∈ keys bins) :
    (shrinkGo n bins dists).isSome := by
  induction bins, dists using shrinkGo.induct n with
  | case1 bins dists hle =>
    rw [shrinkGo_base dists hle]
    simp
  | case2 bins dists hle hpop =>
    exfalso
    rcases hv with hle2 | ⟨d, hd, _⟩
    · exact hle hle2
    · rw [heapPop_none hpop] at hd
      simp at hd
  | case3 bins dists hle d rest hpop ih =>
    rw [shrinkGo_step_eq hle hpop]
    rcases hv with hle2 | ⟨d', hd', hne', hml', hmr'⟩
    · exact absurd hle2 hle
    rcases hrem : binsRemove d.left bins with ⟨ol, bins1⟩
    rcases hrem2 : binsRemove d.right bins1 with ⟨orr, bins2⟩
    cases ol with
    | some dl =>
      cases orr with
      | some dr =>
        have hstep1 : (shrinkStep n bins d rest).1 =
            binsInsert (BinAddress.merge d.left d.right) (BinData.merge dl dr) bins2 := by
          simp only [shrinkStep, hrem, hrem2]
        have h1 := binsRemove_pair_some hrem
        have h2 := binsRemove_pair_some hrem2
        have h3 := binsInsert_length_le (BinAddress.merge d.left d.right)
          (BinData.merge dl dr) bins2
        apply ih (pairwise_shrinkStep hp)
        · rw [hstep1]; omega
        · left; rw [hstep1]; omega
      | none =>
        have hbins : (shrinkStep n bins d rest).1 = bins := by
          have hb2 : bins2 = bins1 := binsRemove_pair_none hrem2
          have hsome : (binsRemove d.left bins).1 = some dl := by rw [hrem]
          have hid := sorted_remove_insert_id hp hsome
          rw [hrem] at hid
          simp only [shrinkStep, hrem, hrem2, hb2]
          exact hid
        have hdists : (shrinkStep n bins d rest).2 = rest := by
          simp only [shrinkStep, hrem, hrem2]
        have hdd : d' ≠ d := by
          intro heq
          have hmr2 : d.right ∈ keys bins := heq ▸ hmr'
          have hne2 : d.left ≠ d.right := heq ▸ hne'
          have hnr : d.right ∈ keys bins1 := by
            have := mem_keys_binsRemove_ne hmr2 (fun h2 => hne2 h2.symm)
            rw [hrem] at this
            exact this
          obtain ⟨v, hv2⟩ := binsRemove_isSome hnr
          rw [hrem2] at hv2
          simp at hv2
        apply ih (by rw [hbins]; exact hp)
        · rw [hbins]; exact hlen
        · right
          exact ⟨d', by rw [hdists]; exact heapPop_mem_of_ne hpop d' hd' hdd,
            hne', by rw [hbins]; exact hml', by rw [hbins]; exact hmr'⟩
    | none =>
      have hdd : d' ≠ d := by
        intro heq
        have hml2 : d.left ∈ keys bins := heq ▸ hml'
        obtain ⟨v, hv2⟩ := binsRemove_isSome hml2
        rw [hrem] at hv2
        simp at hv2
      have hb1 : bins1 = bins := binsRemove_pair_none hrem
      cases orr with
      | some dr =>
        have hbins : (shrinkStep n bins d rest).1 = bins := by
          have hsome : (binsRemove d.right bins1).1 = some dr := by rw [hrem2]
          have hp1 : List.Pairwise altb (keys bins1) := by rw [hb1]; exact hp
          have hid := sorted_remove_insert_id hp1 hsome
          rw [hrem2] at hid
          simp only [shrinkStep, hrem, hrem2]
          rw [hid, hb1]
        have hdists : (shrinkStep n bins d rest).2 = rest := by
          simp only [shrinkStep, hrem, hrem2]
        apply ih (by rw [hbins]; exact hp)
        · rw [hbins]; exact hlen
        · right
          exact ⟨d', by rw [hdists]; exact heapPop_mem_of_ne hpop d' hd' hdd,
            hne', by rw [hbins]; exact hml', by rw [hbins]; exact hmr'⟩
      | none =>
        have hbins : (shrinkStep n bins d rest).1 = bins := by
          have hb2 : bins2 = bins1 := binsRemove_pair_none hrem2
          simp only [shrinkStep, hrem, hrem2]
          rw [hb2, hb1]
        have hdists : (shrinkStep n bins d rest).2 = rest := by
          simp only [shrinkStep, hrem, hrem2]
        apply ih (by rw [hbins]; exact hp)
        · rw [hbins]; exact hlen
        · right
          exact ⟨d', by rw [hdists]; exact heapPop_mem_of_ne hpop d' hd' hdd,
            hne', by rw [hbins]; exact hml', by rw [hbins]; exact hmr'⟩

/-- `insert` cannot panic on a within-budget sorted histogram whose budget
is at least one bin. -/
theorem insert_isSome {h : Histogram} (y : ℚ) (c : ℕ)
    (hp : List.Pairwise altb (keys h.bins)) (hn : 1 ≤ h.n_bins)
    (hl : h.bins.length ≤ h.n_bins) : (Histogram.insert h y c).isSome := by
  unfold Histogram.insert
  dsimp only
  cases hpred : binsPred (BinAddress.init y) h.bins with
  | some e =>
    dsimp only
    by_cases hcov : (BinAddress.init y).right ≤ e.1.right
    · rw [if_pos hcov]
      apply shrink_to_fit_isSome_of
      dsimp only
      have hkey : e.1 ∈ keys h.bins :=
        List.mem_map_of_mem Prod.fst (binsPred_mem hpred).1
      have hlen : (binsInsert e.1 ⟨e.2.count + c, e.2.sum + y⟩ h.bins).length ≤ h.n_bins := by
        rw [binsInsert_length_replace hkey hp]
        exact hl
      rw [shrinkGo_base _ hlen]
      simp
    · rw [if_neg hcov]
      apply shrink_to_fit_isSome_of
      dsimp only
      have hkey : e.1 ∈ keys h.bins :=
        List.mem_map_of_mem Prod.fst (binsPred_mem hpred).1
      have hfresh : BinAddress.init y ∉ keys h.bins := by
        intro hmem
        obtain ⟨v, hv⟩ := mem_keys_exists_val hmem
        have h1 : alte (BinAddress.init y) e.1 :=
          binsPred_max hp hpred (BinAddress.init y, v) hv (alte_refl _)
        have h2 : alte e.1 (BinAddress.init y) := (binsPred_mem hpred).2
        have h3 : e.1 = BinAddress.init y := alte_antisymm h2 h1
        apply hcov
        rw [h3]
      have hlen1 : (binsInsert (BinAddress.init y) (BinData.init y) h.bins).length =
          h.bins.length + 1 := binsInsert_length_fresh hfresh
      rcases Nat.lt_or_ge h.bins.length h.n_bins with hlt | hge
      · rw [shrinkGo_base _ (by omega)]
        simp
      · apply shrinkGo_isSome (pairwise_binsInsert hp) (by omega)
        right
        refine ⟨BinDistance.new e.1 (BinAddress.init y), ?_, ?_, ?_, ?_⟩
        · cases hsucc : binsSucc (BinAddress.init y) h.bins with
          | some s => simp
          | none => simp
        · exact fun heq => hfresh ((show e.1 = BinAddress.init y from heq) ▸ hkey)
        · exact keys_binsInsert_sub hkey
        · exact keys_binsInsert_mem _ _ _
  | none =>
    dsimp only
    apply shrink_to_fit_isSome_of
    dsimp only
    have hfresh : BinAddress.init y ∉ keys h.bins := by
      intro hmem
      obtain ⟨v, hv⟩ := mem_keys_exists_val hmem
      exact binsPred_none hpred _ hv (alte_refl _)
    have hlen1 : (binsInsert (BinAddress.init y) (BinData.init y) h.bins).length =
        h.bins.length + 1 := binsInsert_length_fresh hfresh
    rcases Nat.lt_or_ge h.bins.length h.n_bins with hlt | hge
    · rw [shrinkGo_base _ (by omega)]
      simp
    · have hne : h.bins ≠ [] := by
        intro hnil
        rw [hnil] at hge
        simp at hge
        omega
      have hsucc_ne : binsSucc (BinAddress.init y) h.bins ≠ none :=
        binsSucc_none_ne_nil hne (binsPred_none hpred)
      cases hsucc : binsSucc (BinAddress.init y) h.bins with
      | none => exact absurd hsucc hsucc_ne
      | some s =>
        apply shrinkGo_isSome (pairwise_binsInsert hp) (by omega)
        right
        have hsk : s.1 ∈ keys h.bins :=
          List.mem_map_of_mem Prod.fst (binsSucc_mem hsucc).1
        refine ⟨BinDistance.new (BinAddress.init y) s.1, by simp, ?_, ?_, ?_⟩
        · exact fun heq => hfresh ((show BinAddress.init y = s.1 from heq).symm ▸ hsk)
        · exact keys_binsInsert_mem _ _ _
        · exact keys_binsInsert_sub hsk

/-! ### The heap invariant behind mass conservation of the compression loop

A candidate `(X, Y)` in the heap is *good* relative to the current map:
its addresses are strictly ordered; when both are still present they are
consecutive keys; and a no-longer-present address is either dominated by a
present key with the same left endpoint and a strictly larger right
endpoint, or no present key carries its left endpoint at all.  Every heap
state arising in `merge`'s compression satisfies this, and it rules out
both overwrites in `bins.insert(merged, ...)` and the re-creation of a
removed address, so no weighted count is ever dropped. -/

def Consec (a b : BinAddress) (bins : Bins) : Prop :=
  ∀ w ∈ keys bins, ¬(altb a w ∧ altb w b)

def Dominated (a : BinAddress) (bins : Bins) : Prop :=
  ∃ w ∈ keys bins, w.left = a.left ∧ a.right < w.right

def Orphaned (a : BinAddress) (bins : Bins) : Prop :=
  ∀ w ∈ keys bins, w.left ≠ a.left

def GoodEntry (bins : Bins) (d : BinDistance) : Prop :=
  altb d.left d.right ∧
  (d.left ∈ keys bins → d.right ∈ keys bins → Consec d.left d.right bins) ∧
  (d.left ∉ keys bins → Dominated d.left bins ∨ Orphaned d.left bins) ∧
  (d.right ∉ keys bins → Dominated d.right bins ∨ Orphaned d.right bins)

theorem binaddr_ext {a b : BinAddress} (h1 : a.left = b.left)
    (h2 : a.right = b.right) : a = b := by
  cases a
  cases b
  cases h1
  cases h2
  rfl

theorem merge_left_eq {X Y : BinAddress} (h : altb X Y) :
    (BinAddress.merge X Y).left = X.left := by
  show min X.left Y.left = X.left
  rcases h with h | ⟨h1, h2⟩
  · exact min_eq_left (le_of_lt h)
  · exact min_eq_left (le_of_eq h1)

theorem merge_right_ge_left {X Y : BinAddress} :
    X.right ≤ (BinAddress.merge X Y).right := le_max_left _ _

theorem merge_right_ge_right {X Y : BinAddress} :
    Y.right ≤ (BinAddress.merge X Y).right := le_max_right _ _

theorem alte_merge_left {X Y : BinAddress} (h : altb X Y) :
    alte X (BinAddress.merge X Y) := by
  rcases lt_or_eq_of_le (merge_right_ge_left (X := X) (Y := Y)) with hlt | heq
  · exact Or.inl (Or.inr ⟨(merge_left_eq h).symm, hlt⟩)
  · exact Or.inr (binaddr_ext (merge_left_eq h).symm heq)

theorem merge_lt_or_eq {X Y : BinAddress} (h : altb X Y) :
    altb (BinAddress.merge X Y) Y ∨ BinAddress.merge X Y = Y := by
  rcases h with h | ⟨h1, h2⟩
  · left
    exact Or.inl (by rw [merge_left_eq (Or.inl h)]; exact h)
  · right
    apply binaddr_ext
    · rw [merge_left_eq (Or.inr ⟨h1, h2⟩), h1]
    · show max X.right Y.right = Y.right
      exact max_eq_right (le_of_lt h2)

theorem merge_ne_right {X Y : BinAddress} (h : altb X Y)
    (hne : BinAddress.merge X Y ≠ Y) : X.left < Y.left := by
  rcases h with h | ⟨h1, h2⟩
  · exact h
  · exfalso
    apply hne
    apply binaddr_ext
    · rw [merge_left_eq (Or.inr ⟨h1, h2⟩), h1]
    · show max X.right Y.right = Y.right
      exact max_eq_right (le_of_lt h2)

theorem merge_ne_left {X Y : BinAddress} (h : altb X Y)
    (hne : BinAddress.merge X Y ≠ X) :
    X.right < (BinAddress.merge X Y).right := by
  rcases lt_or_eq_of_le (merge_right_ge_left (X := X) (Y := Y)) with hlt | heq
  · exact hlt
  · exact absurd (binaddr_ext (merge_left_eq h) heq.symm) hne

theorem mem_bins2_of_ne {bins bins1 bins2 : Bins} {X Y : BinAddress}
    {dl dr : BinData}
    (hl : binsRemove X bins = (some dl, bins1))
    (hr : binsRemove Y bins1 = (some dr, bins2))
    {a : BinAddress} (ha : a ∈ keys bins) (hax : a ≠ X) (hay : a ≠ Y) :
    a ∈ keys bins2 := by
  have h1 : a ∈ keys bins1 := by
    have := mem_keys_binsRemove_ne ha hax
    rw [hl] at this
    exact this
  have := mem_keys_binsRemove_ne h1 hay
  rw [hr] at this
  exact this

theorem mem_bins_of_bins2 {bins bins1 bins2 : Bins} {X Y : BinAddress}
    {ol orr : Option BinData}
    (hl : binsRemove X bins = (ol, bins1))
    (hr : binsRemove Y bins1 = (orr, bins2))
    {a : BinAddress} (ha : a ∈ keys bins2) : a ∈ keys bins := by
  have hb2 : bins2 = (binsRemove Y bins1).2 := by rw [hr]
  have hb1 : bins1 = (binsRemove X bins).2 := by rw [hl]
  rw [hb2] at ha
  have h2 := mem_keys_binsRemove ha
  rw [hb1] at h2
  exact mem_keys_binsRemove h2

theorem merge_no_overwrite {bins bins1 bins2 : Bins} {X Y : BinAddress}
    {dl dr : BinData} (hp : List.Pairwise altb (keys bins)) (hXY : altb X Y)
    (hcons : Consec X Y bins)
    (hl : binsRemove X bins = (some dl, bins1))
    (hr : binsRemove Y bins1 = (some dr, bins2)) :
    BinAddress.merge X Y ∉ keys bins2 := by
  intro hM2
  have hb1 : bins1 = (binsRemove X bins).2 := by rw [hl]
  have hb2 : bins2 = (binsRemove Y bins1).2 := by rw [hr]
  have hp1 : List.Pairwise altb (keys bins1) := by
    rw [hb1]; exact pairwise_binsRemove hp
  have hXn1 : X ∉ keys bins1 := by rw [hb1]; exact binsRemove_not_mem hp
  have hYn2 : Y ∉ keys bins2 := by rw [hb2]; exact binsRemove_not_mem hp1
  have hXn2 : X ∉ keys bins2 := by
    intro hx
    apply hXn1
    rw [hb2] at hx
    exact mem_keys_binsRemove hx
  have hMb : BinAddress.merge X Y ∈ keys bins := mem_bins_of_bins2 hl hr hM2
  have hMX : BinAddress.merge X Y ≠ X := fun he => hXn2 (he ▸ hM2)
  have hMY : BinAddress.merge X Y ≠ Y := fun he => hYn2 (he ▸ hM2)
  have h1 : altb X (BinAddress.merge X Y) := by
    rcases alte_merge_left hXY with h | h
    · exact h
    · exact absurd h.symm hMX
  have h2 : altb (BinAddress.merge X Y) Y := by
    rcases merge_lt_or_eq hXY with h | h
    · exact h
    · exact absurd h hMY
  exact hcons _ hMb ⟨h1, h2⟩

theorem no_resurrection {bins : Bins} {X Y : BinAddress}
    (hXb : X ∈ keys bins) (hYb : Y ∈ keys bins) (hXY : altb X Y)
    (hcons : Consec X Y bins)
    (hdo : Dominated (BinAddress.merge X Y) bins ∨
      Orphaned (BinAddress.merge X Y) bins)
    (hnb : BinAddress.merge X Y ∉ keys bins) : False := by
  rcases hdo with ⟨W, hWb, hWl, hWr⟩ | horp
  · have hWXl : W.left = X.left := hWl.trans (merge_left_eq hXY)
    have hWX : altb X W :=
      Or.inr ⟨hWXl.symm, lt_of_le_of_lt merge_right_ge_left hWr⟩
    have hMY : BinAddress.merge X Y ≠ Y := fun he => hnb (he.symm ▸ hYb)
    have hXlY : X.left < Y.left := merge_ne_right hXY hMY
    have hWY : altb W Y := Or.inl (by rw [hWXl]; exact hXlY)
    exact hcons W hWb ⟨hWX, hWY⟩
  · exact horp X hXb (merge_left_eq hXY).symm

theorem absent_preserved {bins bins1 bins2 : Bins} {X Y : BinAddress}
    {dl dr : BinData} {dat : BinData}
    (hp : List.Pairwise altb (keys bins)) (hXY : altb X Y)
    (hcons : Consec X Y bins)
    (hl : binsRemove X bins = (some dl, bins1))
    (hr : binsRemove Y bins1 = (some dr, bins2))
    {A : BinAddress}
    (hold : A ∉ keys bins → Dominated A bins ∨ Orphaned A bins)
    (hA3 : A ∉ keys (binsInsert (BinAddress.merge X Y) dat bins2)) :
    Dominated A (binsInsert (BinAddress.merge X Y) dat bins2) ∨
      Orphaned A (binsInsert (BinAddress.merge X Y) dat bins2) := by
  have hXb : X ∈ keys bins := by
    apply binsRemove_some_mem (v := dl)
    rw [hl]
  have hb1 : bins1 = (binsRemove X bins).2 := by rw [hl]
  have hYb1 : Y ∈ keys bins1 := by
    apply binsRemove_some_mem (v := dr)
    rw [hr]
  have hYb : Y ∈ keys bins := by
    rw [hb1] at hYb1
    exact mem_keys_binsRemove hYb1
  have hp1 : List.Pairwise altb (keys bins1) := by
    rw [hb1]; exact pairwise_binsRemove hp
  have hb2 : bins2 = (binsRemove Y bins1).2 := by rw [hr]
  have hYn2 : Y ∉ keys bins2 := by rw [hb2]; exact binsRemove_not_mem hp1
  have hAM : A ≠ BinAddress.merge X Y :=
    fun he => hA3 (he ▸ keys_binsInsert_mem (BinAddress.merge X Y) dat bins2)
  have hA2 : A ∉ keys bins2 := fun h2 => hA3 (keys_binsInsert_sub h2)
  have hML : (BinAddress.merge X Y).left = X.left := merge_left_eq hXY
  by_cases hAbins : A ∈ keys bins
  · have hAXY : A = X ∨ A = Y := by
      by_contra hno
      push_neg at hno
      exact hA2 (mem_bins2_of_ne hl hr hAbins hno.1 hno.2)
    rcases hAXY with rfl | rfl
    · have hMX : BinAddress.merge A Y ≠ A := fun he => hAM he.symm
      left
      refine ⟨BinAddress.merge A Y, keys_binsInsert_mem _ _ _, hML, ?_⟩
      exact merge_ne_left hXY hMX
    · have hMY : BinAddress.merge X A ≠ A := fun he => hAM he.symm
      have hXlY : X.left < A.left := merge_ne_right hXY hMY
      by_cases hex : ∃ w ∈ keys bins2, w.left = A.left
      · obtain ⟨w, hw2, hwl⟩ := hex
        have hwb : w ∈ keys bins := mem_bins_of_bins2 hl hr hw2
        have hwY : w ≠ A := fun he => hYn2 (he ▸ hw2)
        rcases lt_trichotomy w.right A.right with hlt | heq | hgt
        · have h1 : altb w A := Or.inr ⟨hwl, hlt⟩
          have h2 : altb X w := Or.inl (by rw [hwl]; exact hXlY)
          exact absurd ⟨h2, h1⟩ (hcons w hwb)
        · exact absurd (binaddr_ext hwl heq) hwY
        · left
          exact ⟨w, keys_binsInsert_sub hw2, hwl, hgt⟩
      · right
        intro w hw3
        rcases mem_keys_binsInsert hw3 with rfl | hw2
        · rw [hML]
          exact ne_of_lt hXlY
        · exact fun he => hex ⟨w, hw2, he⟩
  · rcases hold hAbins with ⟨K, hKb, hKl, hKr⟩ | horp
    · by_cases hK2 : K ∈ keys bins2
      · left
        exact ⟨K, keys_binsInsert_sub hK2, hKl, hKr⟩
      · have hKXY : K = X ∨ K = Y := by
          by_contra hno
          push_neg at hno
          exact hK2 (mem_bins2_of_ne hl hr hKb hno.1 hno.2)
        rcases hKXY with rfl | rfl
        · left
          refine ⟨BinAddress.merge K Y, keys_binsInsert_mem _ _ _, ?_, ?_⟩
          · rw [hML]; exact hKl
          · exact lt_of_lt_of_le hKr merge_right_ge_left
        · by_cases hMeq : BinAddress.merge X K = K
          · left
            refine ⟨BinAddress.merge X K, keys_binsInsert_mem _ _ _, ?_, ?_⟩
            · rw [hMeq]; exact hKl
            · exact lt_of_lt_of_le hKr merge_right_ge_right
          · have hXlY : X.left < K.left := merge_ne_right hXY hMeq
            by_cases hex : ∃ w ∈ keys bins2, w.left = A.left
            · obtain ⟨w, hw2, hwl⟩ := hex
              have hwb : w ∈ keys bins := mem_bins_of_bins2 hl hr hw2
              have hwK : w ≠ K := fun he => hYn2 (he ▸ hw2)
              rcases lt_trichotomy w.right K.right with hlt | heq | hgt
              · have h1 : altb w K := Or.inr ⟨by rw [hwl, ← hKl], hlt⟩
                have h2 : altb X w := Or.inl (by rw [hwl, ← hKl]; exact hXlY)
                exact absurd ⟨h2, h1⟩ (hcons w hwb)
              · exact absurd (binaddr_ext (by rw [hwl, ← hKl]) heq) hwK
              · left
                refine ⟨w, keys_binsInsert_sub hw2, hwl, ?_⟩
                calc A.right < K.right := hKr
                  _ < w.right := hgt
            · right
              intro w hw3
              rcases mem_keys_binsInsert hw3 with rfl | hw2
              · rw [hML, ← hKl]
                exact ne_of_lt hXlY
              · exact fun he => hex ⟨w, hw2, he⟩
    · right
      intro w hw3
      rcases mem_keys_binsInsert hw3 with rfl | hw2
      · rw [hML]
        exact horp X hXb
      · exact horp w (mem_bins_of_bins2 hl hr hw2)

theorem rebuild_entries {bins : Bins} (hp : List.Pairwise altb (keys bins)) :
    ∀ d ∈ rebuildList bins, altb d.left d.right ∧ d.left ∈ keys bins ∧
      d.right ∈ keys bins ∧ Consec d.left d.right bins := by
  induction bins with
  | nil => simp [rebuildList]
  | cons a t ih =>
    cases t with
    | nil => simp [rebuildList]
    | cons b t2 =>
      have hre : rebuildList (a :: b :: t2) =
          BinDistance.new a.1 b.1 :: rebuildList (b :: t2) := by
        simp [rebuildList]
      have hk : keys (a :: b :: t2) = a.1 :: keys (b :: t2) := rfl
      have hk2 : keys (b :: t2) = b.1 :: keys t2 := rfl
      rw [hre]
      rw [hk, List.pairwise_cons] at hp
      obtain ⟨hhead, htail⟩ := hp
      intro d hd
      rcases List.mem_cons.mp hd with rfl | hd
      · refine ⟨hhead b.1 (by rw [hk2]; exact List.mem_cons_self _ _), ?_, ?_, ?_⟩
        · rw [hk]
          exact List.mem_cons_self _ _
        · rw [hk, hk2]
          exact List.mem_cons_of_mem _ (List.mem_cons_self _ _)
        · rintro w hw ⟨hw1, hw2⟩
          rw [hk] at hw
          rcases List.mem_cons.mp hw with rfl | hw
          · exact altb_irrefl _ hw1
          · rw [hk2] at hw
            rcases List.mem_cons.mp hw with rfl | hw
            · exact altb_irrefl _ hw2
            · have hbw : altb b.1 w := by
                rw [hk2, List.pairwise_cons] at htail
                exact htail.1 w hw
              exact altb_asymm hbw hw2
      · obtain ⟨h1, h2, h3, h4⟩ := ih htail d hd
        refine ⟨h1, ?_, ?_, ?_⟩
        · rw [hk]
          exact List.mem_cons_of_mem _ h2
        · rw [hk]
          exact List.mem_cons_of_mem _ h3
        · rintro w hw ⟨hw1, hw2⟩
          rw [hk] at hw
          rcases List.mem_cons.mp hw with rfl | hw
          · exact altb_asymm (hhead d.left h2) hw1
          · exact h4 w hw ⟨hw1, hw2⟩

theorem goodEntry_rebuild {bins : Bins} (hp : List.Pairwise altb (keys bins)) :
    ∀ d ∈ rebuildList bins, GoodEntry bins d := by
  intro d hd
  obtain ⟨h1, h2, h3, h4⟩ := rebuild_entries hp d hd
  exact ⟨h1, fun _ _ => h4, fun hc => absurd h2 hc, fun hc => absurd h3 hc⟩

theorem goodEntry_succ {bins : Bins} (hp : List.Pairwise altb (keys bins))
    {k : BinAddress} {s : BinAddress × BinData} (hk : k ∈ keys bins)
    (hs : binsSucc k bins = some s) :
    GoodEntry bins (BinDistance.new k s.1) := by
  obtain ⟨hsmem, hslt⟩ := binsSucc_mem hs
  have hsk : s.1 ∈ keys bins := List.mem_map_of_mem Prod.fst hsmem
  refine ⟨hslt, fun _ _ => ?_, fun hc => absurd hk hc, fun hc => absurd hsk hc⟩
  rintro w hw ⟨hw1, hw2⟩
  obtain ⟨v, hv⟩ := mem_keys_exists_val hw
  have hmin : alte s.1 w := binsSucc_min hp hs (w, v) hv hw1
  have hw2x : altb w s.1 := hw2
  rcases hmin with h5 | h5
  · exact altb_asymm h5 hw2x
  · rw [h5] at hw2x
    exact altb_irrefl _ hw2x

theorem goodEntry_step {bins bins1 bins2 : Bins} {X Y : BinAddress}
    {dl dr : BinData} {dat : BinData}
    (hp : List.Pairwise altb (keys bins)) (hXY : altb X Y)
    (hcons : Consec X Y bins)
    (hl : binsRemove X bins = (some dl, bins1))
    (hr : binsRemove Y bins1 = (some dr, bins2))
    {d' : BinDistance} (hd' : GoodEntry bins d') :
    GoodEntry (binsInsert (BinAddress.merge X Y) dat bins2) d' := by
  obtain ⟨hord, hcc, hal, har⟩ := hd'
  have hXb : X ∈ keys bins := by
    apply binsRemove_some_mem (v := dl)
    rw [hl]
  have hb1 : bins1 = (binsRemove X bins).2 := by rw [hl]
  have hYb1 : Y ∈ keys bins1 := by
    apply binsRemove_some_mem (v := dr)
    rw [hr]
  have hYb : Y ∈ keys bins := by
    rw [hb1] at hYb1
    exact mem_keys_binsRemove hYb1
  have hp1 : List.Pairwise altb (keys bins1) := by
    rw [hb1]; exact pairwise_binsRemove hp
  have hb2 : bins2 = (binsRemove Y bins1).2 := by rw [hr]
  have hYn2 : Y ∉ keys bins2 := by rw [hb2]; exact binsRemove_not_mem hp1
  have hXn1 : X ∉ keys bins1 := by rw [hb1]; exact binsRemove_not_mem hp
  have hXn2 : X ∉ keys bins2 := by
    intro hx
    apply hXn1
    rw [hb2] at hx
    exact mem_keys_binsRemove hx
  have hsub : ∀ a : BinAddress, a ∈ keys bins2 → a ∈ keys bins :=
    fun a ha => mem_bins_of_bins2 hl hr ha
  refine ⟨hord, ?_, fun hA3 => absent_preserved hp hXY hcons hl hr hal hA3,
    fun hB3 => absent_preserved hp hXY hcons hl hr har hB3⟩
  intro hA3 hB3
  rcases mem_keys_binsInsert hA3 with hAM | hA2
  · -- the left endpoint is the merged address itself
    have hAbins : d'.left ∈ keys bins := by
      by_contra hnb
      exact no_resurrection hXb hYb hXY hcons
        (by rw [← hAM]; exact hal hnb) (by rw [← hAM]; exact hnb)
    rcases mem_keys_binsInsert hB3 with hBM | hB2
    · exact absurd (hAM.trans hBM.symm) (altb_ne hord)
    · have hco := hcc hAbins (hsub _ hB2)
      rintro w hw3 ⟨hw1, hw2⟩
      rcases mem_keys_binsInsert hw3 with rfl | hw2'
      · rw [hAM] at hw1
        exact altb_irrefl _ hw1
      · exact hco w (hsub _ hw2') ⟨hw1, hw2⟩
  · rcases mem_keys_binsInsert hB3 with hBM | hB2
    · -- the right endpoint is the merged address
      have hBbins : d'.right ∈ keys bins := by
        by_contra hnb
        exact no_resurrection hXb hYb hXY hcons
          (by rw [← hBM]; exact har hnb) (by rw [← hBM]; exact hnb)
      have hco := hcc (hsub _ hA2) hBbins
      rintro w hw3 ⟨hw1, hw2⟩
      rcases mem_keys_binsInsert hw3 with rfl | hw2'
      · rw [hBM] at hw2
        exact altb_irrefl _ hw2
      · exact hco w (hsub _ hw2') ⟨hw1, hw2⟩
    · -- both endpoints survive untouched
      have hAb := hsub _ hA2
      have hBb := hsub _ hB2
      have hco := hcc hAb hBb
      rintro w hw3 ⟨hw1, hw2⟩
      rcases mem_keys_binsInsert hw3 with rfl | hw2'
      · -- w is the merged address strictly between the endpoints: impossible
        rcases merge_lt_or_eq hXY with hMY | hMY
        · by_cases hAX : d'.left = X
          · exact hXn2 (hAX ▸ hA2)
          · rcases altb_total hAX with hax | hax
            · have hxb : altb X d'.right :=
                altb_of_alte_of_altb (alte_merge_left hXY) hw2
              exact hco X hXb ⟨hax, hxb⟩
            · have hay : altb d'.left Y := altb_trans hw1 hMY
              exact hcons d'.left hAb ⟨hax, hay⟩
        · rw [hMY] at hw1 hw2
          exact hco Y hYb ⟨hw1, hw2⟩
      · exact hco w (hsub _ hw2') ⟨hw1, hw2⟩

/-- One compression step preserves sortedness, good heap entries, and the
total weighted count. -/
theorem shrinkStep_inv {n : ℕ} {bins : Bins} {d : BinDistance}
    {dists rest : List BinDistance}
    (hp : List.Pairwise altb (keys bins))
    (hgood : ∀ e ∈ dists, GoodEntry bins e)
    (hpop : heapPop dists = some (d, rest)) :
    (List.Pairwise altb (keys (shrinkStep n bins d rest).1) ∧
      ∀ e ∈ (shrinkStep n bins d rest).2,
        GoodEntry (shrinkStep n bins d rest).1 e) ∧
      binsCount (shrinkStep n bins d rest).1 = binsCount bins := by
  have hd := hgood d (heapPop_fst_mem hpop)
  have hrest : ∀ e ∈ rest, GoodEntry bins e :=
    fun e he => hgood e (heapPop_rest_mem hpop e he)
  rcases hrem : binsRemove d.left bins with ⟨ol, bins1⟩
  rcases hrem2 : binsRemove d.right bins1 with ⟨orr, bins2⟩
  cases ol with
  | some dl =>
    cases orr with
    | some dr =>
      obtain ⟨hord, hcc, _, _⟩ := hd
      have hXb : d.left ∈ keys bins := by
        apply binsRemove_some_mem (v := dl)
        rw [hrem]
      have hb1 : bins1 = (binsRemove d.left bins).2 := by rw [hrem]
      have hYb1 : d.right ∈ keys bins1 := by
        apply binsRemove_some_mem (v := dr)
        rw [hrem2]
      have hYb : d.right ∈ keys bins := by
        rw [hb1] at hYb1
        exact mem_keys_binsRemove hYb1
      have hcons : Consec d.left d.right bins := hcc hXb hYb
      have hnov := merge_no_overwrite hp hord hcons hrem hrem2
      have hp1 : List.Pairwise altb (keys bins1) := by
        rw [hb1]; exact pairwise_binsRemove hp
      have hb2 : bins2 = (binsRemove d.right bins1).2 := by rw [hrem2]
      have hp2 : List.Pairwise altb (keys bins2) := by
        rw [hb2]; exact pairwise_binsRemove hp1
      have hp3 : List.Pairwise altb (keys (binsInsert
          (BinAddress.merge d.left d.right) (BinData.merge dl dr) bins2)) :=
        pairwise_binsInsert hp2
      have hc1 : binsCount bins1 + dl.count = binsCount bins := by
        have := binsCount_binsRemove
          (show (binsRemove d.left bins).1 = some dl by rw [hrem])
        rw [hrem] at this
        exact this
      have hc2 : binsCount bins2 + dr.count = binsCount bins1 := by
        have := binsCount_binsRemove
          (show (binsRemove d.right bins1).1 = some dr by rw [hrem2])
        rw [hrem2] at this
        exact this
      have hc3 : binsCount (binsInsert (BinAddress.merge d.left d.right)
          (BinData.merge dl dr) bins2) =
          binsCount bins2 + (BinData.merge dl dr).count :=
        binsCount_binsInsert_fresh hnov
      have h1eq : (shrinkStep n bins d rest).1 = binsInsert
          (BinAddress.merge d.left d.right) (BinData.merge dl dr) bins2 := by
        simp only [shrinkStep, hrem, hrem2]
      refine ⟨⟨by rw [h1eq]; exact hp3, ?_⟩, ?_⟩
      · intro e he
        rw [h1eq]
        have h2eq : (shrinkStep n bins d rest).2 =
            (fun dists2 => if n * 10 < dists2.length
              then rebuildList (binsInsert (BinAddress.merge d.left d.right)
                (BinData.merge dl dr) bins2)
              else dists2)
            (match binsSucc (BinAddress.merge d.left d.right)
                (binsInsert (BinAddress.merge d.left d.right)
                  (BinData.merge dl dr) bins2) with
              | some s => rest ++ [BinDistance.new
                  (BinAddress.merge d.left d.right) s.1]
              | none => rest) := by
          simp only [shrinkStep, hrem, hrem2]
        rw [h2eq] at he
        cases hsucc : binsSucc (BinAddress.merge d.left d.right)
            (binsInsert (BinAddress.merge d.left d.right)
              (BinData.merge dl dr) bins2) with
        | some s =>
          rw [hsucc] at he
          dsimp only at he
          split at he
          · exact goodEntry_rebuild hp3 e he
          · rcases List.mem_append.mp he with he | he
            · exact goodEntry_step hp hord hcons hrem hrem2 (hrest e he)
            · have he2 : e = BinDistance.new
                  (BinAddress.merge d.left d.right) s.1 := by simpa using he
              subst he2
              exact goodEntry_succ hp3 (keys_binsInsert_mem _ _ _) hsucc
        | none =>
          rw [hsucc] at he
          dsimp only at he
          split at he
          · exact goodEntry_rebuild hp3 e he
          · exact goodEntry_step hp hord hcons hrem hrem2 (hrest e he)
      · rw [h1eq, hc3]
        have : (BinData.merge dl dr).count = dl.count + dr.count := rfl
        omega
    | none =>
      have hbins : (shrinkStep n bins d rest).1 = bins := by
        have hb2 : bins2 = bins1 := binsRemove_pair_none hrem2
        have hsome : (binsRemove d.left bins).1 = some dl := by rw [hrem]
        have hid := sorted_remove_insert_id hp hsome
        rw [hrem] at hid
        simp only [shrinkStep, hrem, hrem2, hb2]
        exact hid
      have hdists : (shrinkStep n bins d rest).2 = rest := by
        simp only [shrinkStep, hrem, hrem2]
      rw [hbins, hdists]
      exact ⟨⟨hp, hrest⟩, rfl⟩
  | none =>
    have hb1 : bins1 = bins := binsRemove_pair_none hrem
    cases orr with
    | some dr =>
      have hbins : (shrinkStep n bins d rest).1 = bins := by
        have hsome : (binsRemove d.right bins1).1 = some dr := by rw [hrem2]
        have hp1 : List.Pairwise altb (keys bins1) := by rw [hb1]; exact hp
        have hid := sorted_remove_insert_id hp1 hsome
        rw [hrem2] at hid
        simp only [shrinkStep, hrem, hrem2]
        rw [hid, hb1]
      have hdists : (shrinkStep n bins d rest).2 = rest := by
        simp only [shrinkStep, hrem, hrem2]
      rw [hbins, hdists]
      exact ⟨⟨hp, hrest⟩, rfl⟩
    | none =>
      have hbins : (shrinkStep n bins d rest).1 = bins := by
        have hb2 : bins2 = bins1 := binsRemove_pair_none hrem2
        simp only [shrinkStep, hrem, hrem2]
        rw [hb2, hb1]
      have hdists : (shrinkStep n bins d rest).2 = rest := by
        simp only [shrinkStep, hrem, hrem2]
      rw [hbins, hdists]
      exact ⟨⟨hp, hrest⟩, rfl⟩

/-- The compression loop never changes the total weighted count when every
heap entry is good: stale pops change nothing and valid pops replace two
bins by one holding both counts, never overwriting a third. -/
theorem shrinkGo_count {n : ℕ} {bins : Bins} {dists : List BinDistance}
    {p : Bins × List BinDistance} (h : shrinkGo n bins dists = some p)
    (hp : List.Pairwise altb (keys bins))
    (hgood : ∀ e ∈ dists, GoodEntry bins e) :
    binsCount p.1 = binsCount bins := by
  induction bins, dists using shrinkGo.induct n with
  | case1 bins dists hle =>
    rw [shrinkGo_base dists hle] at h
    injection h with h
    rw [← h]
  | case2 bins dists hle hpop =>
    unfold shrinkGo at h
    rw [if_neg hle, hpop] at h
    exact absurd h (by simp)
  | case3 bins dists hle d rest hpop ih =>
    rw [shrinkGo_step_eq hle hpop] at h
    obtain ⟨⟨hp3, hgood3⟩, hcnt⟩ := shrinkStep_inv hp hgood hpop
    rw [ih h hp3 hgood3, hcnt]

/-- Mass conservation of `merge`: when the merge returns, the result's
total weighted count is the sum of the two inputs' totals. -/
theorem merge_count {A B h' : Histogram}
    (hpA : List.Pairwise altb (keys A.bins))
    (hm : Histogram.merge_borrowed A B = some h') :
    binsCount h'.bins = binsCount A.bins + binsCount B.bins := by
  have hs := merge_bins_shape hm
  obtain ⟨hsg, hn⟩ := shrink_to_fit_some hs
  dsimp only at hsg
  have hpu : List.Pairwise altb (keys (B.bins.foldl
      (fun b e => binsMergeInsert e.1 e.2 b) A.bins)) :=
    pairwise_mergeFold _ _ hpA
  have hcnt := shrinkGo_count hsg hpu (goodEntry_rebuild hpu)
  rw [hcnt, binsCount_mergeFold]

/-! ### Serialization round-trip and the median walk -/

theorem binsInsert_append {k : BinAddress} {v : BinData} {bins : Bins}
    (hall : ∀ a ∈ keys bins, altb a k) :
    binsInsert k v bins = bins ++ [(k, v)] := by
  induction bins with
  | nil => rfl
  | cons e rest ih =>
    have he : altb e.1 k := by
      apply hall
      rw [show keys (e :: rest) = e.1 :: keys rest from rfl]
      exact List.mem_cons_self _ _
    have h1 : ¬altb k e.1 := altb_asymm he
    have h2 : k ≠ e.1 := fun heq => (altb_ne he) heq.symm
    simp only [binsInsert, if_neg h1, if_neg h2, List.cons_append]
    rw [ih]
    intro a ha
    apply hall
    rw [show keys (e :: rest) = e.1 :: keys rest from rfl]
    exact List.mem_cons_of_mem _ ha

theorem foldl_binsInsert_sorted (rest : Bins) :
    ∀ acc : Bins, List.Pairwise altb (keys (acc ++ rest)) →
      rest.foldl (fun b e => binsInsert e.1 e.2 b) acc = acc ++ rest := by
  induction rest with
  | nil =>
    intro acc h
    simp
  | cons e t ih =>
    intro acc h
    simp only [List.foldl_cons]
    have hkapp : keys (acc ++ e :: t) = keys acc ++ keys (e :: t) := by
      simp [keys]
    have hall : ∀ a ∈ keys acc, altb a e.1 := by
      intro a ha
      rw [hkapp, List.pairwise_append] at h
      refine h.2.2 a ha e.1 ?_
      rw [show keys (e :: t) = e.1 :: keys t from rfl]
      exact List.mem_cons_self _ _
    rw [binsInsert_append hall]
    have h2 : List.Pairwise altb (keys ((acc ++ [(e.1, e.2)]) ++ t)) := by
      rw [List.append_assoc]
      exact h
    rw [ih (acc ++ [(e.1, e.2)]) h2, List.append_assoc]
    rfl

theorem toHistogram_fold_bins (l : List (ℚ × ℚ × BinData)) :
    ∀ h0 : Histogram,
      ((l.foldl (fun hist t =>
        ⟨binsInsert (BinAddress.new t.1 t.2.1) t.2.2 hist.bins,
          rebuildList (binsInsert (BinAddress.new t.1 t.2.1) t.2.2 hist.bins),
          hist.n_bins⟩) h0 : Histogram).bins =
        l.foldl (fun b t => binsInsert (BinAddress.new t.1 t.2.1) t.2.2 b) h0.bins) ∧
      ((l.foldl (fun hist t =>
        ⟨binsInsert (BinAddress.new t.1 t.2.1) t.2.2 hist.bins,
          rebuildList (binsInsert (BinAddress.new t.1 t.2.1) t.2.2 hist.bins),
          hist.n_bins⟩) h0 : Histogram).n_bins = h0.n_bins) := by
  induction l with
  | nil => intro h0; exact ⟨rfl, rfl⟩
  | cons t ts ih =>
    intro h0
    simp only [List.foldl_cons]
    exact ih _

/-- Round trip through the serializable form: the bin mapping is carried
over entry for entry (in order) and the budget survives; nothing is
compressed on the way back. -/
theorem roundtrip_sorted {h : Histogram}
    (hp : List.Pairwise altb (keys h.bins)) :
    (Histogram.toSerializable h).toHistogram.bins = h.bins ∧
      (Histogram.toSerializable h).toHistogram.n_bins = h.n_bins := by
  unfold Histogram.toSerializable SerializableHistogram.toHistogram
  dsimp only
  obtain ⟨hb, hn⟩ := toHistogram_fold_bins
    (h.bins.map fun e => (e.1.left, e.1.right, e.2)) (Histogram.new h.n_bins)
  refine ⟨?_, hn⟩
  rw [hb]
  rw [List.foldl_map]
  have hfun : (fun (b : Bins) (e : BinAddress × BinData) =>
      binsInsert (BinAddress.new (e.1.left, e.1.right, e.2).1
        (e.1.left, e.1.right, e.2).2.1) (e.1.left, e.1.right, e.2).2.2 b) =
      fun (b : Bins) (e : BinAddress × BinData) => binsInsert e.1 e.2 b := by
    funext b e
    rfl
  rw [hfun]
  have hinit : (Histogram.new h.n_bins).bins = ([] : Bins) := rfl
  rw [hinit]
  have := foldl_binsInsert_sorted h.bins [] (by simpa using hp)
  simpa using this

theorem medianGo_eq_none {target : ℕ} {bins : Bins} :
    medianGo target bins = none ↔ binsCount bins ≤ target := by
  induction bins generalizing target with
  | nil => simp [medianGo, binsCount]
  | cons e rest ih =>
    simp only [medianGo]
    by_cases hle : e.2.count ≤ target
    · rw [if_pos hle, ih]
      simp only [binsCount, List.map_cons, List.sum_cons]
      constructor
      · intro h2
        omega
      · intro h2
        omega
    · rw [if_neg hle]
      simp only [binsCount, List.map_cons, List.sum_cons]
      constructor
      · intro h2
        exact absurd h2 (by simp)
      · intro h2
        exact absurd h2 (by omega)

/-! ### Concrete reachable states used as witnesses and counterexamples

Batteries marks the rational field operations `@[irreducible]`; they are
locally unsealed so that closed runs of the model evaluate by `decide`. -/

attribute [local semireducible] Rat.add Rat.sub Rat.mul Rat.inv Rat.ofScientific

def exT3a : Histogram := ⟨[(⟨1, 1⟩, ⟨1, 1⟩)], [], 3⟩

def exT3b : Histogram :=
  ⟨[(⟨1, 1⟩, ⟨1, 1⟩), (⟨2, 2⟩, ⟨1, 2⟩)], [⟨⟨1, 1⟩, ⟨2, 2⟩, 1⟩], 3⟩

def exT3c : Histogram :=
  ⟨[(⟨1, 1⟩, ⟨1, 1⟩), (⟨2, 2⟩, ⟨1, 2⟩), (⟨10, 10⟩, ⟨1, 10⟩)],
    [⟨⟨1, 1⟩, ⟨2, 2⟩, 1⟩, ⟨⟨2, 2⟩, ⟨10, 10⟩, 8⟩], 3⟩

def exT3d : Histogram :=
  ⟨[(⟨1, 2⟩, ⟨2, 3⟩), (⟨10, 10⟩, ⟨1, 10⟩), (⟨20, 20⟩, ⟨1, 20⟩)],
    [⟨⟨2, 2⟩, ⟨10, 10⟩, 8⟩, ⟨⟨10, 10⟩, ⟨20, 20⟩, 10⟩,
      ⟨⟨1, 2⟩, ⟨10, 10⟩, 8⟩], 3⟩

def exG10 : Histogram := ⟨[(⟨1, 1⟩, ⟨1, 1⟩)], [], 10⟩

def exOvl : Histogram :=
  ⟨[(⟨1, 1⟩, ⟨1, 1⟩), (⟨1, 2⟩, ⟨2, 3⟩), (⟨10, 10⟩, ⟨1, 10⟩),
      (⟨20, 20⟩, ⟨1, 20⟩)],
    [⟨⟨1, 1⟩, ⟨1, 2⟩, 0⟩, ⟨⟨1, 2⟩, ⟨10, 10⟩, 8⟩,
      ⟨⟨10, 10⟩, ⟨20, 20⟩, 10⟩], 10⟩

theorem reached_exT3a : Reached exT3a :=
  Reached.ins 1 1 (Reached.new 3)
    (insertF_sound (by decide : insertF 4 (Histogram.new 3) 1 1 = some (some exT3a)))

theorem reached_exT3b : Reached exT3b :=
  Reached.ins 2 1 reached_exT3a
    (insertF_sound (by decide : insertF 4 exT3a 2 1 = some (some exT3b)))

theorem reached_exT3c : Reached exT3c :=
  Reached.ins 10 1 reached_exT3b
    (insertF_sound (by decide : insertF 4 exT3b 10 1 = some (some exT3c)))

theorem reached_exT3d : Reached exT3d :=
  Reached.ins 20 1 reached_exT3c
    (insertF_sound (by decide : insertF 4 exT3c 20 1 = some (some exT3d)))

theorem reached_exG10 : Reached exG10 :=
  Reached.ins 1 1 (Reached.new 10)
    (insertF_sound (by decide : insertF 4 (Histogram.new 10) 1 1 = some (some exG10)))

theorem reached_exOvl : Reached exOvl :=
  Reached.mrgb reached_exG10 reached_exT3d
    (mergeBorrowedF_sound
      (by decide : mergeBorrowedF 4 exG10 exT3d = some (some exOvl)))

def exZ1 : Histogram := ⟨[(⟨0, 0⟩, ⟨1, 0⟩)], [], 1⟩

def exW3a : Histogram := ⟨[(⟨10, 10⟩, ⟨1, 10⟩)], [], 3⟩

def exW3b : Histogram :=
  ⟨[(⟨10, 10⟩, ⟨1, 10⟩), (⟨11, 11⟩, ⟨1, 11⟩)],
    [⟨⟨10, 10⟩, ⟨11, 11⟩, 1⟩], 3⟩

def exW3c : Histogram :=
  ⟨[(⟨10, 10⟩, ⟨1, 10⟩), (⟨11, 11⟩, ⟨1, 11⟩), (⟨13, 13⟩, ⟨1, 13⟩)],
    [⟨⟨10, 10⟩, ⟨11, 11⟩, 1⟩, ⟨⟨11, 11⟩, ⟨13, 13⟩, 2⟩], 3⟩

theorem reached_exZ1 : Reached exZ1 :=
  Reached.ins 0 1 (Reached.new 1)
    (insertF_sound (by decide : insertF 4 (Histogram.new 1) 0 1 = some (some exZ1)))

theorem reached_exW3a : Reached exW3a :=
  Reached.ins 10 1 (Reached.new 3)
    (insertF_sound (by decide : insertF 4 (Histogram.new 3) 10 1 = some (some exW3a)))

theorem reached_exW3b : Reached exW3b :=
  Reached.ins 11 1 reached_exW3a
    (insertF_sound (by decide : insertF 4 exW3a 11 1 = some (some exW3b)))

theorem reached_exW3c : Reached exW3c :=
  Reached.ins 13 1 reached_exW3b
    (insertF_sound (by decide : insertF 4 exW3b 13 1 = some (some exW3c)))

def exA1 : Histogram := ⟨[(⟨1, 1⟩, ⟨1, 1⟩)], [], 2⟩

def exA2 : Histogram :=
  ⟨[(⟨1, 1⟩, ⟨1, 1⟩), (⟨5, 5⟩, ⟨1, 5⟩)], [⟨⟨1, 1⟩, ⟨5, 5⟩, 4⟩], 2⟩

def exB1 : Histogram := ⟨[(⟨2, 2⟩, ⟨1, 2⟩)], [], 2⟩

def exB2 : Histogram :=
  ⟨[(⟨2, 2⟩, ⟨1, 2⟩), (⟨9, 9⟩, ⟨1, 9⟩)], [⟨⟨2, 2⟩, ⟨9, 9⟩, 7⟩], 2⟩

def exAB : Histogram :=
  ⟨[(⟨1, 5⟩, ⟨3, 8⟩), (⟨9, 9⟩, ⟨1, 9⟩)],
    [⟨⟨5, 5⟩, ⟨9, 9⟩, 4⟩, ⟨⟨1, 5⟩, ⟨9, 9⟩, 4⟩], 2⟩

theorem reached_exA1 : Reached exA1 :=
  Reached.ins 1 1 (Reached.new 2)
    (insertF_sound (by decide : insertF 4 (Histogram.new 2) 1 1 = some (some exA1)))

theorem reached_exA2 : Reached exA2 :=
  Reached.ins 5 1 reached_exA1
    (insertF_sound (by decide : insertF 4 exA1 5 1 = some (some exA2)))

theorem reached_exB1 : Reached exB1 :=
  Reached.ins 2 1 (Reached.new 2)
    (insertF_sound (by decide : insertF 4 (Histogram.new 2) 2 1 = some (some exB1)))

theorem reached_exB2 : Reached exB2 :=
  Reached.ins 9 1 reached_exB1
    (insertF_sound (by decide : insertF 4 exB1 9 1 = some (some exB2)))

theorem merge_exA_exB : Histogram.merge exA2 exB2 = some exAB :=
  mergeBorrowedF_sound
    (by decide : mergeBorrowedF 6 exA2 exB2 = some (some exAB))

/-! ### The claims -/

/-- C1: REFUTED (code bug).  The spec guarantees the total weighted count
grows by exactly `weight` on every insert, but the new-bin branch builds
the bin with `BinData::init`, which ignores the weight argument and always
records count 1: inserting value 0 with weight 2 into a fresh budget-1
histogram leaves a total count of 1, not 2. -/
theorem C1_insert_weight_dropped :
    (Histogram.insert (Histogram.new 1) 0 2).map Histogram.count = some 1 := by
  have h := insertF_sound
    (by decide :
      insertF 4 (Histogram.new 1) 0 2 = some (some ⟨[(⟨0, 0⟩, ⟨1, 0⟩)], [], 1⟩))
  rw [h]
  decide

/-- C2: counterexample to the non-overlap half.  A reachable histogram (a
merge of two insert-built histograms that returns without needing
compression) holds bins at `[1,1]` and `[1,2]` simultaneously, and the
value 1 lies inside both closed intervals. -/
theorem C2_overlap_counterexample :
    Reached exOvl ∧
      BinAddress.new 1 1 ∈ keys exOvl.bins ∧
      BinAddress.new 1 2 ∈ keys exOvl.bins ∧
      BinAddress.new 1 1 ≠ BinAddress.new 1 2 ∧
      (BinAddress.new 1 1).contains 1 = Ordering.eq ∧
      (BinAddress.new 1 2).contains 1 = Ordering.eq :=
  ⟨reached_exOvl, by decide, by decide, by decide, by decide, by decide⟩

/-- C2 (amended): the ordering half of the invariant is real: every
histogram reachable through the public operations keeps its bin mapping
strictly sorted by the lexicographic address order.  The non-overlap half
is refuted by the counterexample. -/
theorem C2_amended_sorted {h : Histogram} (hr : Reached h) :
    List.Pairwise altb (keys h.bins) := (reached_inv hr).1

/-- C2 witness: sortedness instantiated at a concrete reachable state. -/
theorem C2_amended_sorted_witness : List.Pairwise altb (keys exOvl.bins) :=
  C2_amended_sorted reached_exOvl

/-- C3: CONFIRMED.  Whenever `merge` returns on reachable histograms with
equal budgets, the result's total weighted count is exactly the sum of the
inputs' totals: the per-bin folding adds counts, and the compression that
follows only ever fuses consecutive bins, never overwriting a third bin or
re-creating a removed address. -/
theorem C3_merge_count_additive {A B h' : Histogram} (hA : Reached A)
    (hB : Reached B) (hn : A.n_bins = B.n_bins)
    (hm : Histogram.merge A B = some h') :
    h'.count = A.count + B.count := by
  rw [count_eq_binsCount, count_eq_binsCount, count_eq_binsCount]
  exact merge_count (reached_inv hA).1 hm

/-- C3 witness: two concrete reachable budget-2 histograms of weight 2
each merge into a histogram of weight 4. -/
theorem C3_merge_count_witness : exAB.count = exA2.count + exB2.count :=
  C3_merge_count_additive reached_exA2 reached_exB2 rfl merge_exA_exB

/-- C4: CONFIRMED.  After every public operation that returns, the bin
mapping holds at most `n_bins` entries. -/
theorem C4_budget_invariant {h : Histogram} (hr : Reached h) :
    h.bins.length ≤ h.n_bins := (reached_inv hr).2.2

/-- C4 witness: the budget bound at a concrete reachable state. -/
theorem C4_budget_witness : exT3d.bins.length ≤ exT3d.n_bins :=
  C4_budget_invariant reached_exT3d

/-- C5: counterexample.  The unconditional pop can fail on reachable
states: inserting into a budget-0 histogram enters the loop with an empty
heap, and merging a reachable budget-1 histogram with a reachable 3-bin
histogram exhausts the heap mid-compression.  Both runs panic (`none`). -/
theorem C5_pop_counterexample :
    (Reached (Histogram.new 0) ∧ Histogram.insert (Histogram.new 0) 0 1 = none) ∧
      (Reached exZ1 ∧ Reached exW3c ∧ Histogram.merge exZ1 exW3c = none) := by
  refine ⟨⟨Reached.new 0, ?_⟩, reached_exZ1, reached_exW3c, ?_⟩
  · exact insertF_sound (by decide : insertF 4 (Histogram.new 0) 0 1 = some none)
  · exact mergeBorrowedF_sound
      (by decide : mergeBorrowedF 8 exZ1 exW3c = some none)

/-- C5 (amended): with a budget of at least one bin, `insert` never hits
the empty-heap pop on any reachable (hence sorted, within-budget)
histogram: the candidate entries pushed by the insertion itself guarantee
the single merge it can need.  The unrestricted claim is refuted by the
counterexample (budget 0, and heap exhaustion inside `merge`). -/
theorem C5_amended_insert_safe {h : Histogram} {y : ℚ} {c : ℕ}
    (hr : Reached h) (hn : 1 ≤ h.n_bins) :
    (Histogram.insert h y c).isSome := by
  obtain ⟨hp, _, hl⟩ := reached_inv hr
  exact insert_isSome y c hp hn hl

/-- C5 witness: a concrete full budget-3 histogram accepts one more
insertion without panicking. -/
theorem C5_amended_witness : (Histogram.insert exT3d 7 5).isSome :=
  C5_amended_insert_safe reached_exT3d (by decide)

/-- C6: CONFIRMED.  Round-tripping any (reachable, i.e. sorted) histogram
through its serializable form restores the bin mapping entry for entry, in
the same order, and the budget; deserialization never compresses. -/
theorem C6_roundtrip {h : Histogram} (hr : Reached h) :
    (Histogram.toSerializable h).toHistogram.bins = h.bins ∧
      (Histogram.toSerializable h).toHistogram.n_bins = h.n_bins :=
  roundtrip_sorted (reached_inv hr).1

/-- C6 witness: the round trip at a concrete reachable state. -/
theorem C6_roundtrip_witness :
    (Histogram.toSerializable exT3d).toHistogram.bins = exT3d.bins ∧
      (Histogram.toSerializable exT3d).toHistogram.n_bins = exT3d.n_bins :=
  C6_roundtrip reached_exT3d

/-- C7: CONFIRMED.  `partial_sum` returns normally for every rank up to
the bin's count, returns exactly the stored sum at rank = count, and
panics (`none`) for every larger rank instead of clamping. -/
theorem C7_partial_sum_rank (addr : BinAddress) (data : BinData) (r : ℕ) :
    (r ≤ data.count → (partialSum addr data r).isSome) ∧
    partialSum addr data data.count = some data.sum ∧
    (data.count < r → partialSum addr data r = none) := by
  refine ⟨?_, ?_, ?_⟩
  · intro hr
    unfold partialSum
    rcases lt_or_eq_of_le hr with hlt | heq
    · rw [if_pos hlt]
      simp
    · rw [if_neg (by omega), if_pos heq]
      simp
  · unfold partialSum
    rw [if_neg (lt_irrefl _), if_pos rfl]
  · intro hr
    unfold partialSum
    rw [if_neg (by omega), if_neg (by omega)]

/-- C7 witness: the exact sum at full rank and the panic beyond it, on a
concrete bin. -/
theorem C7_partial_sum_witness :
    partialSum (BinAddress.new 0 4) (BinData.new 3 6) 3 = some 6 ∧
      partialSum (BinAddress.new 0 4) (BinData.new 3 6) 5 = none :=
  ⟨(C7_partial_sum_rank (BinAddress.new 0 4) (BinData.new 3 6) 3).2.1,
    (C7_partial_sum_rank (BinAddress.new 0 4) (BinData.new 3 6) 5).2.2
      (by decide)⟩

/-- C8: CONFIRMED.  `median` returns `None` exactly when the histogram's
total weighted count is zero. -/
theorem C8_median_none_iff (h : Histogram) : h.median = none ↔ h.count = 0 := by
  unfold Histogram.median
  rw [medianGo_eq_none, count_eq_binsCount]
  omega

/-- C9: CONFIRMED.  When an existing bin covers the inserted value, the
fold updates the bin to count + weight and sum + value: the value enters
the sum exactly once, independent of the weight. -/
theorem C9_fold_adds_value_once {h : Histogram} {y : ℚ} {c : ℕ}
    {e : BinAddress × BinData}
    (hp : binsPred (BinAddress.init y) h.bins = some e)
    (hcov : (BinAddress.init y).right ≤ e.1.right) :
    Histogram.insert h y c =
      Histogram.shrink_to_fit
        ⟨binsInsert e.1 (BinData.new (e.2.count + c) (e.2.sum + y)) h.bins,
          h.distances, h.n_bins⟩ := by
  unfold Histogram.insert
  dsimp only
  rw [hp]
  dsimp only
  rw [if_pos hcov]
  rfl

/-- C9 witness: inserting value 1 with weight 7 into a bin `[0,2]` of
count 3 and sum 5 folds to count 10 and sum 6. -/
theorem C9_fold_witness :
    Histogram.insert ⟨[(⟨0, 2⟩, ⟨3, 5⟩)], [], 4⟩ 1 7 =
      Histogram.shrink_to_fit
        ⟨binsInsert ⟨0, 2⟩ (BinData.new (3 + 7) (5 + 1)) [(⟨0, 2⟩, ⟨3, 5⟩)],
          [], 4⟩ :=
  C9_fold_adds_value_once
    (show binsPred (BinAddress.init 1) [(⟨0, 2⟩, ⟨3, 5⟩)] =
      some (⟨0, 2⟩, ⟨3, 5⟩) from by decide)
    (by decide)

/-- C10: CONFIRMED.  Deserialization inserts every listed bin directly and
never invokes compression: a serializable form with two bins and budget 1
reconstructs to a histogram whose bin count exceeds its budget. -/
theorem C10_deserialize_unbounded :
    ∃ s : SerializableHistogram,
      s.toHistogram.n_bins < s.toHistogram.bins.length := by
  refine ⟨⟨1, [(0, 0, BinData.new 1 0), (2, 2, BinData.new 1 2)]⟩, ?_⟩
  decide
